import Mathlib

/-!
Verification of the obsidian-claude-plugins daily-planner pipeline.

The Python sources are shallowly embedded over the type Str, short for
List Char, which models Python str (a sequence of code points).  Pure
string manipulation is translated directly; the process boundary
(filesystem reads, the gog subprocess, datetime parsing) is passed in as
explicit oracle functions, so that every embedded function is a total,
executable Lean definition.
-/

set_option maxRecDepth 20000

/-- Str models a Python str as a list of code points. -/
abbrev Str := List Char

/-- Whitespace characters stripped by Python str.strip / collapsed by the
regex class backslash-s (ASCII range; the inputs handled by the scripts are
ASCII apart from the emoji header, which is not whitespace). -/
def isWsChar (c : Char) : Bool :=
  c = ' ' || c = '\t' || c = '\n' || c = '\r' || c = Char.ofNat 11 || c = Char.ofNat 12

/-- Python str.lstrip with no argument. -/
def lstrip (s : Str) : Str := s.dropWhile isWsChar

/-- Python str.rstrip with no argument. -/
def rstrip (s : Str) : Str := (s.reverse.dropWhile isWsChar).reverse

/-- Python str.strip with no argument. -/
def pstrip (s : Str) : Str := lstrip (rstrip s)

/-- Python str.lower restricted to ASCII letters (all keyword comparisons in
the sources are over ASCII text). -/
def lowerAscii (s : Str) : Str :=
  s.map (fun c => if 'A' ≤ c && c ≤ 'Z' then Char.ofNat (c.toNat + 32) else c)

/-- Python s.split with separator a newline: splits into lines, keeping
empty pieces, so that the empty string yields one empty line. -/
def splitLines : Str → List Str
  | [] => [[]]
  | c :: cs =>
    if c = '\n' then [] :: splitLines cs
    else
      match splitLines cs with
      | [] => [[c]]
      | l :: ls => (c :: l) :: ls

/-- Python newline.join. -/
def joinLines : List Str → Str
  | [] => []
  | [l] => l
  | l :: l2 :: ls => l ++ '\n' :: joinLines (l2 :: ls)

/-- Python s.find(pat) combined with the split at the first occurrence:
returns some (before, after) with s = before ++ pat ++ after and before
shortest, or none when pat does not occur in s. -/
def splitFirst (pat : Str) : Str → Option (Str × Str)
  | [] => if pat.isPrefixOf [] then some ([], []) else none
  | c :: cs =>
    if pat.isPrefixOf (c :: cs) then some ([], List.drop pat.length (c :: cs))
    else (splitFirst pat cs).map (fun p => (c :: p.1, p.2))

/-- Python membership test pat in s (substring containment). -/
def containsSub (pat : Str) : Str → Bool
  | [] => pat.isPrefixOf []
  | c :: cs => pat.isPrefixOf (c :: cs) || containsSub pat cs

/-- Fuel-driven core of Python str.replace: replaces non-overlapping
occurrences left to right.  The fuel starts at the length of the string,
which bounds the number of steps, so the zero-fuel row is unreachable on
the initial call; an empty pattern is left alone (the scripts only ever
replace non-empty tokens). -/
def substAux (pat rep : Str) : Nat → Str → Str
  | _, [] => []
  | 0, s => s
  | fuel + 1, c :: cs =>
    if pat.isPrefixOf (c :: cs) && !pat.isEmpty then
      rep ++ substAux pat rep fuel (List.drop (pat.length - 1) cs)
    else
      c :: substAux pat rep fuel cs

/-- Python s.replace(pat, rep) for a non-empty pat. -/
def replaceAll (pat rep s : Str) : Str := substAux pat rep s.length s

/-- Python string comparison a lt b: lexicographic on code points. -/
def lexLt : Str → Str → Bool
  | [], [] => false
  | [], _ :: _ => true
  | _ :: _, [] => false
  | a :: as, b :: bs => a < b || (a = b && lexLt as bs)

/-- Python tuple-of-two-strings comparison le, as used by sorted on the
(start_time, link) pairs of the daily-note merge. -/
def pairLe (p q : Str × Str) : Prop :=
  lexLt p.1 q.1 = true ∨ (p.1 = q.1 ∧ (lexLt p.2 q.2 = true ∨ p.2 = q.2))

instance : DecidableRel pairLe := fun p q => by
  unfold pairLe
  infer_instance

/-- Order-preserving deduplication with an accumulator of already seen
elements: the Python idiom of appending to a list only when the element is
not already in it. -/
def dedupAcc {α : Type} [DecidableEq α] (seen : List α) : List α → List α
  | [] => []
  | a :: as => if a ∈ seen then dedupAcc seen as else a :: dedupAcc (seen ++ [a]) as

/-- Keeps the first occurrence of every element, dropping later repeats. -/
def dedupFirst {α : Type} [DecidableEq α] (l : List α) : List α := dedupAcc [] l

theorem lexLt_total : ∀ a b : Str, lexLt a b = true ∨ a = b ∨ lexLt b a = true := by
  intro a
  induction a with
  | nil => intro b; cases b <;> simp [lexLt]
  | cons x xs ih =>
    intro b
    cases b with
    | nil => simp [lexLt]
    | cons y ys =>
      rcases lt_trichotomy x y with h | h | h
      · left; simp [lexLt, h]
      · subst h
        rcases ih ys with h2 | h2 | h2
        · left; simp [lexLt, h2]
        · subst h2; right; left; rfl
        · right; right; simp [lexLt, h2]
      · right; right; simp [lexLt, h]

theorem lexLt_irrefl : ∀ a : Str, lexLt a a = false := by
  intro a
  induction a with
  | nil => rfl
  | cons x xs ih => simp [lexLt, ih]

theorem lexLt_trans :
    ∀ a b c : Str, lexLt a b = true → lexLt b c = true → lexLt a c = true := by
  intro a
  induction a with
  | nil =>
    intro b c hab hbc
    cases b with
    | nil => simp [lexLt] at hab
    | cons y ys => cases c with
      | nil => simp [lexLt] at hbc
      | cons z zs => simp [lexLt]
  | cons x xs ih =>
    intro b c hab hbc
    cases b with
    | nil => simp [lexLt] at hab
    | cons y ys =>
      cases c with
      | nil => simp [lexLt] at hbc
      | cons z zs =>
        simp [lexLt] at hab hbc ⊢
        rcases hab with h1 | ⟨h1, h1t⟩
        · rcases hbc with h2 | ⟨h2, h2t⟩
          · exact Or.inl (lt_trans h1 h2)
          · subst h2; exact Or.inl h1
        · subst h1
          rcases hbc with h2 | ⟨h2, h2t⟩
          · exact Or.inl h2
          · subst h2; exact Or.inr ⟨rfl, ih ys zs h1t h2t⟩

theorem lexLt_asymm : ∀ a b : Str, lexLt a b = true → lexLt b a = false := by
  intro a b hab
  by_contra h
  rw [Bool.not_eq_false] at h
  have := lexLt_trans a b a hab h
  rw [lexLt_irrefl] at this
  exact Bool.false_ne_true this

instance : IsTotal (Str × Str) pairLe := by
  constructor
  intro p q
  rcases lexLt_total p.1 q.1 with h | h | h
  · exact Or.inl (Or.inl h)
  · rcases lexLt_total p.2 q.2 with h2 | h2 | h2
    · exact Or.inl (Or.inr ⟨h, Or.inl h2⟩)
    · exact Or.inl (Or.inr ⟨h, Or.inr h2⟩)
    · exact Or.inr (Or.inr ⟨h.symm, Or.inl h2⟩)
  · exact Or.inr (Or.inl h)

instance : IsTrans (Str × Str) pairLe := by
  constructor
  intro p q r hpq hqr
  rcases hpq with h1 | ⟨h1, h1t⟩
  · rcases hqr with h2 | ⟨h2, _⟩
    · exact Or.inl (lexLt_trans _ _ _ h1 h2)
    · exact Or.inl (h2 ▸ h1)
  · rcases hqr with h2 | ⟨h2, h2t⟩
    · exact Or.inl (h1 ▸ h2)
    · rcases h1t with h3 | h3
      · rcases h2t with h4 | h4
        · exact Or.inr ⟨h1.trans h2, Or.inl (lexLt_trans _ _ _ h3 h4)⟩
        · exact Or.inr ⟨h1.trans h2, Or.inl (h4 ▸ h3)⟩
      · exact Or.inr ⟨h1.trans h2, h3 ▸ h2t⟩

instance : IsAntisymm (Str × Str) pairLe := by
  constructor
  intro p q hpq hqp
  rcases hpq with h1 | ⟨h1, h1t⟩
  · rcases hqp with h2 | ⟨h2, _⟩
    · have := lexLt_asymm _ _ h1; rw [h2] at this; simp at this
    · rw [h2] at h1; rw [lexLt_irrefl] at h1; exact absurd h1 Bool.false_ne_true
  · rcases hqp with h2 | ⟨h2, h2t⟩
    · rw [h1] at h2; rw [lexLt_irrefl] at h2; exact absurd h2 Bool.false_ne_true
    · rcases h1t with h3 | h3
      · rcases h2t with h4 | h4
        · have := lexLt_asymm _ _ h3; rw [h4] at this; simp at this
        · rw [h4] at h3; rw [lexLt_irrefl] at h3; exact absurd h3 Bool.false_ne_true
      · exact Prod.ext h1 h3

/-!
Event filter (should_skip_event in skills/daily-planner/process_calendar.py,
and the inline skip checks of ObsidianDailyPlanner._create_meeting_note).
-/

/-- One entry of an event's attendees list.  The email and responseStatus
fields model the results of attendee.get as Options (a missing key is none); the
selfFlag field models the truthiness of attendee.get of the self key, used
by the class-based variant. -/
structure Attendee where
  email : Option Str
  selfFlag : Bool
  responseStatus : Option Str
deriving DecidableEq

/-- The fields of a calendar event record that the embedded functions
consult.  Each optional field models dict.get: none when the key is missing. -/
structure Event where
  eventType : Option Str
  summary : Option Str
  attendees : List Attendee
  guestsCanSeeOtherGuests : Option Bool
  guestsCanInviteOthers : Option Bool
  startDateTime : Option Str
  startDate : Option Str
deriving DecidableEq

/-- Default user_email parameter of should_skip_event. -/
def userEmailDefault : Str := "jlaska@redhat.com".data

/-- Translation of should_skip_event (flat-function variant): skips working
location events, events the user declined, events with no attendees or only
the user, and broadcast events with both guest flags explicitly False. -/
def shouldSkipEvent (ev : Event) (userEmail : Str) : Bool :=
  if ev.eventType = some "workingLocation".data then true
  else if ev.attendees.any
      (fun a => a.email = some userEmail && a.responseStatus = some "declined".data) then true
  else if ev.attendees.isEmpty then true
  else if (ev.attendees.filter (fun a => !(a.email = some userEmail))).isEmpty then true
  else if ev.guestsCanSeeOtherGuests = some false && ev.guestsCanInviteOthers = some false then
    true
  else false

/-- Translation of the skip checks at the top of
ObsidianDailyPlanner._create_meeting_note (class-based variant), which
identify the user by the attendee self flag instead of a fixed email. -/
def shouldSkipEventClass (ev : Event) : Bool :=
  if ev.eventType = some "workingLocation".data then true
  else if ev.attendees.any
      (fun a => a.selfFlag && a.responseStatus = some "declined".data) then true
  else if ev.attendees.isEmpty then true
  else if (ev.attendees.filter (fun a => !a.selfFlag)).isEmpty then true
  else if ev.guestsCanSeeOtherGuests = some false && ev.guestsCanInviteOthers = some false then
    true
  else false

/-!
Attendee resolution (match_attendee_to_person in the flat variant and
ObsidianDailyPlanner._match_attendee in the class-based variant).  The
filesystem grep, the PEOPLE directory scan and the gog subprocess are
passed in as oracles.
-/

/-- Quoted Obsidian wikilink, the output shape of match_attendee_to_person. -/
def quoteWikilink (n : Str) : Str := "\"[[".data ++ n ++ "]]\"".data

/-- Plain quoted string, the shape the class-based variant emits for
attendees that did not match a People file. -/
def plainQuoted (n : Str) : Str := '"' :: (n ++ ['"'])

/-- Translation of match_attendee_to_person (flat variant).  Oracles:
grepHit models the grep over PEOPLE frontmatter (some stem on a hit, none on
no match, timeout or error); personFileExists models the existence check of
PEOPLE/name.md; gogSearch models the gog people search subprocess (some
full_name when the call succeeds with a non-empty name, none on failure,
timeout, bad JSON, empty result or falsy name).  Every exception path in the
source is swallowed into none, which is why the translation is total. -/
def matchAttendeeToPerson (grepHit : Str → Option Str) (personFileExists : Str → Bool)
    (gogSearch : Str → Option Str) (email displayName : Str) : Str :=
  match (if !email.isEmpty then grepHit email else none) with
  | some stem => quoteWikilink stem
  | none =>
    if !displayName.isEmpty && personFileExists displayName then quoteWikilink displayName
    else
      match (if !email.isEmpty then gogSearch email else none) with
      | some fullName => quoteWikilink fullName
      | none => quoteWikilink displayName

/-- Translation of ObsidianDailyPlanner._match_attendee (class-based
variant).  peopleMap models self.people_map as a partial mapping (keys are
known emails and lowercased person names); gogSearch models the gog people
search with the same conventions as above.  Returns the pair (name,
is_people_match). -/
def matchAttendee (peopleMap : Str → Option Str) (gogSearch : Str → Option Str)
    (email displayName : Str) : Str × Bool :=
  match peopleMap email with
  | some n => (n, true)
  | none =>
    match (if !displayName.isEmpty then peopleMap (lowerAscii displayName) else none) with
    | some n => (n, true)
    | none =>
      match (if !email.isEmpty then gogSearch email else none) with
      | some fullName =>
        match peopleMap (lowerAscii fullName) with
        | some n => (n, true)
        | none => (fullName, false)
      | none =>
        if !displayName.isEmpty then (displayName, false)
        else if !email.isEmpty then (email.takeWhile (fun c => !(c = '@')), false)
        else ("Unknown".data, false)

/-!
Attachment classification:
ObsidianDailyPlanner._classify_attachment (class-based variant) and the
inline classification chains of create_meeting_note (flat variant).
-/

/-- Translation of ObsidianDailyPlanner._classify_attachment: returns the
frontmatter property name and the url, from the lowercased attachment title
alone. -/
def classifyAttachment (title fileUrl : Str) : Str × Str :=
  let t := lowerAscii title
  if containsSub "gemini".data t || containsSub "notes by gemini".data t then
    if containsSub "transcript".data t then ("transcript".data, fileUrl)
    else ("agenda".data, fileUrl)
  else if containsSub "recording".data t then ("recording".data, fileUrl)
  else if containsSub "notes".data t || containsSub "agenda".data t ||
      containsSub "1:1".data t || containsSub "1-1".data t then ("agenda".data, fileUrl)
  else if containsSub "minutes".data t || containsSub "summary".data t ||
      containsSub "recap".data t then ("minutes".data, fileUrl)
  else ("agenda".data, fileUrl)

/-- The per-category link buckets of create_meeting_note (flat variant). -/
inductive AttachCat
  | agenda
  | minutes
  | recording
  | gemini
  | slides
  | other
deriving DecidableEq

/-- Result of the Google Drive metadata lookup for an attachment, as used by
create_meeting_note when get_drive_file_info succeeds. -/
structure DriveFile where
  name : Str
  mimeType : Str
  webViewLink : Option Str
deriving DecidableEq

/-- Translation of the attachment classification chains inside
create_meeting_note (flat variant).  The drive argument is the oracle
outcome of get_drive_file_info: some metadata uses the Drive branch, none
falls back to the calendar attachment title and url. -/
def classifyAttachmentFlat (drive : Option DriveFile) (title fileUrl : Str) :
    AttachCat × Str :=
  match drive with
  | some df =>
    let name := lowerAscii df.name
    let link := df.webViewLink.getD fileUrl
    if containsSub "gemini".data name then (AttachCat.gemini, link)
    else if containsSub "recording".data name then (AttachCat.recording, link)
    else if containsSub "minutes".data name || containsSub "summary".data name ||
        containsSub "recap".data name then (AttachCat.minutes, link)
    else if df.mimeType = "application/vnd.google-apps.presentation".data ||
        containsSub "slides".data name || containsSub "presentation".data name ||
        containsSub "deck".data name then (AttachCat.slides, link)
    else if containsSub "notes".data name || containsSub "agenda".data name ||
        containsSub "1:1".data name || containsSub "1-1".data name then
      (AttachCat.agenda, link)
    else (AttachCat.other, link)
  | none =>
    let t := lowerAscii title
    if containsSub "transcript".data t || containsSub "gemini".data fileUrl then
      (AttachCat.gemini, fileUrl)
    else if containsSub "recording".data t then (AttachCat.recording, fileUrl)
    else if containsSub "minutes".data t || containsSub "summary".data t ||
        containsSub "recap".data t then (AttachCat.minutes, fileUrl)
    else if containsSub "notes".data t || containsSub "agenda".data t ||
        containsSub "1:1".data t || containsSub "1-1".data t then (AttachCat.agenda, fileUrl)
    else if containsSub "docs.google.com".data fileUrl then (AttachCat.agenda, fileUrl)
    else (AttachCat.other, fileUrl)

/-!
Date-format translation
(obsidian_date_formatter.py, MOMENT_TO_STRFTIME and convert_moment_to_strftime).
-/

/-- The MOMENT_TO_STRFTIME table, in its source (dict insertion) order. -/
def momentTable : List (Str × Str) :=
  [ ("YYYY".data, "%Y".data), ("YY".data, "%y".data),
    ("MMMM".data, "%B".data), ("MMM".data, "%b".data),
    ("MM".data, "%m".data), ("M".data, "%-m".data),
    ("DDDD".data, "%j".data), ("DD".data, "%d".data), ("D".data, "%-d".data),
    ("dddd".data, "%A".data), ("ddd".data, "%a".data), ("dd".data, "%a".data),
    ("d".data, "%w".data),
    ("HH".data, "%H".data), ("H".data, "%-H".data),
    ("hh".data, "%I".data), ("h".data, "%-I".data),
    ("mm".data, "%M".data), ("m".data, "%-M".data),
    ("ss".data, "%S".data), ("s".data, "%-S".data),
    ("A".data, "%p".data), ("a".data, "%p".data) ]

/-- The tokens sorted by length, longest first, with ties keeping table
order: Python sorted with key len and reverse True is a stable sort that
does not reorder ties. -/
def sortedMomentTokens : List (Str × Str) :=
  List.insertionSort (fun p q : Str × Str => q.1.length ≤ p.1.length) momentTable

/-- The opaque placeholder built for the i-th matched token: a NUL byte,
the decimal counter, a NUL byte. -/
def momentPlaceholder (i : Nat) : Str :=
  Char.ofNat 0 :: ((Nat.repr i).data ++ [Char.ofNat 0])

/-- First pass of convert_moment_to_strftime: walk the length-sorted token
list; each token present in the working string is replaced everywhere by a
fresh placeholder, and the placeholder-to-native-code pair is recorded in
encounter order (dict insertion order of placeholder_map). -/
def convertPassOne : List (Str × Str) → Nat → Str → Str × List (Str × Str)
  | [], _, r => (r, [])
  | (tok, code) :: rest, i, r =>
    if containsSub tok r then
      let r2 := replaceAll tok (momentPlaceholder i) r
      let out := convertPassOne rest (i + 1) r2
      (out.1, (momentPlaceholder i, code) :: out.2)
    else convertPassOne rest i r

/-- Translation of convert_moment_to_strftime: two-pass placeholder
substitution, then each placeholder is replaced by its native strftime
code in recording order. -/
def convertMomentToStrftime (fmt : Str) : Str :=
  let out := convertPassOne sortedMomentTokens 0 fmt
  out.2.foldl (fun acc pc => replaceAll pc.1 pc.2 acc) out.1

/-- Modelled from the spec: the host-native date formatter
(Python datetime.strftime, outside this repository) is represented by the
rendered field values of one date. -/
structure DateParts where
  year4 : Str
  year2 : Str
  monthName : Str
  monthAbbr : Str
  month2 : Str
  monthNoPad : Str
  dayOfYear : Str
  day2 : Str
  dayNoPad : Str
  weekdayName : Str
  weekdayAbbr : Str
  weekdayNum : Str
  hour24 : Str
  hour24NoPad : Str
  hour12 : Str
  hour12NoPad : Str
  minute2 : Str
  minuteNoPad : Str
  second2 : Str
  secondNoPad : Str
  meridiem : Str

/-- Modelled from the spec: rendering of a strftime pattern over one date,
for exactly the native codes appearing in the token table; any other
character is copied through. -/
def strftimeRender (d : DateParts) : Str → Str
  | [] => []
  | '%' :: 'Y' :: rest => d.year4 ++ strftimeRender d rest
  | '%' :: 'y' :: rest => d.year2 ++ strftimeRender d rest
  | '%' :: 'B' :: rest => d.monthName ++ strftimeRender d rest
  | '%' :: 'b' :: rest => d.monthAbbr ++ strftimeRender d rest
  | '%' :: 'm' :: rest => d.month2 ++ strftimeRender d rest
  | '%' :: 'j' :: rest => d.dayOfYear ++ strftimeRender d rest
  | '%' :: 'd' :: rest => d.day2 ++ strftimeRender d rest
  | '%' :: 'A' :: rest => d.weekdayName ++ strftimeRender d rest
  | '%' :: 'a' :: rest => d.weekdayAbbr ++ strftimeRender d rest
  | '%' :: 'w' :: rest => d.weekdayNum ++ strftimeRender d rest
  | '%' :: 'H' :: rest => d.hour24 ++ strftimeRender d rest
  | '%' :: 'I' :: rest => d.hour12 ++ strftimeRender d rest
  | '%' :: 'M' :: rest => d.minute2 ++ strftimeRender d rest
  | '%' :: 'S' :: rest => d.second2 ++ strftimeRender d rest
  | '%' :: 'p' :: rest => d.meridiem ++ strftimeRender d rest
  | '%' :: '-' :: 'm' :: rest => d.monthNoPad ++ strftimeRender d rest
  | '%' :: '-' :: 'd' :: rest => d.dayNoPad ++ strftimeRender d rest
  | '%' :: '-' :: 'H' :: rest => d.hour24NoPad ++ strftimeRender d rest
  | '%' :: '-' :: 'I' :: rest => d.hour12NoPad ++ strftimeRender d rest
  | '%' :: '-' :: 'M' :: rest => d.minuteNoPad ++ strftimeRender d rest
  | '%' :: '-' :: 'S' :: rest => d.secondNoPad ++ strftimeRender d rest
  | c :: rest => c :: strftimeRender d rest

/-- The date 2026-02-26, a Thursday, rendered fieldwise. -/
def date20260226 : DateParts :=
  { year4 := "2026".data, year2 := "26".data,
    monthName := "February".data, monthAbbr := "Feb".data,
    month2 := "02".data, monthNoPad := "2".data,
    dayOfYear := "057".data, day2 := "26".data, dayNoPad := "26".data,
    weekdayName := "Thursday".data, weekdayAbbr := "Thu".data, weekdayNum := "4".data,
    hour24 := "00".data, hour24NoPad := "0".data,
    hour12 := "12".data, hour12NoPad := "12".data,
    minute2 := "00".data, minuteNoPad := "0".data,
    second2 := "00".data, secondNoPad := "0".data,
    meridiem := "AM".data }

/-!
Meeting note creation and the per-event error containment of main
(skills/daily-planner/process_calendar.py).
-/

/-- Translation of sanitize_title: the three single-character replacements,
removal of the invalid character class, whitespace collapse, strip. -/
def sanitizeReplaceChar (c : Char) : Str :=
  if c = '/' || c = ':' || c = '|' then " - ".data else [c]

/-- Characters removed by the invalid-character regex of sanitize_title. -/
def isInvalidTitleChar (c : Char) : Bool :=
  c = '<' || c = '>' || c = ':' || c = '"' || c = '\\' || c = '|' || c = '?' || c = '*'

/-- Core of the whitespace-collapsing regex substitution: every maximal run
of whitespace becomes one space.  The flag records whether the previous
character was whitespace. -/
def collapseWsAux : Bool → Str → Str
  | _, [] => []
  | prevWs, c :: cs =>
    if isWsChar c then
      if prevWs then collapseWsAux true cs else ' ' :: collapseWsAux true cs
    else c :: collapseWsAux false cs

/-- Python re.sub of one-or-more whitespace with a single space. -/
def collapseWs (s : Str) : Str := collapseWsAux false s

/-- Translation of sanitize_title. -/
def sanitizeTitle (title : Str) : Str :=
  pstrip (collapseWs (((title.flatMap sanitizeReplaceChar)).filter
    (fun c => !isInvalidTitleChar c)))

/-- Oracle bundle for the processing loop: parseDateTime models the
datetime.fromisoformat / strptime parsing of get_meeting_file_path, with
none standing for the ValueError raised on malformed input. -/
structure CalendarEnv where
  parseDateTime : Str → Option DateParts

/-- The start date string selected by get_meeting_file_path:
start.get of dateTime, with the falsy (missing or empty) case falling back
to start.get of date; none models the no-usable-date case, on which the
source raises ValueError. -/
def eventDateStr (ev : Event) : Option Str :=
  match ev.startDateTime with
  | some s =>
    if s.isEmpty then
      match ev.startDate with
      | some t => if t.isEmpty then none else some t
      | none => none
    else some s
  | none =>
    match ev.startDate with
    | some t => if t.isEmpty then none else some t
    | none => none

/-- Translation of get_meeting_file_path: raises (error) when the event has
no usable start date or the date fails to parse, otherwise builds the
MEETINGS/year/month/date - title path. -/
def getMeetingFilePath (env : CalendarEnv) (ev : Event) : Except Str Str :=
  match eventDateStr ev with
  | none => Except.error ("Event has no start date".data)
  | some ds =>
    match env.parseDateTime ds with
    | none => Except.error ("invalid date string".data)
    | some dt =>
      Except.ok ("MEETINGS/".data ++ dt.year4 ++ "/".data ++ dt.month2 ++ "-".data ++
        dt.monthName ++ "/".data ++ dt.year4 ++ "-".data ++ dt.month2 ++ "-".data ++
        dt.day2 ++ " - ".data ++ sanitizeTitle (ev.summary.getD "Untitled".data) ++
        ".md".data)

/-- Translation of create_meeting_note restricted to its observable result:
the (start_dt, path) pair returned to main, or the exception propagated from
get_meeting_file_path.  The frontmatter and body construction and the write
itself do not influence the returned pair (an existing file short-circuits
to the same pair) and are not needed by any claim, so they are elided here. -/
def createMeetingNote (env : CalendarEnv) (ev : Event) : Except Str (Str × Str) :=
  match getMeetingFilePath env ev with
  | Except.error e => Except.error e
  | Except.ok path => Except.ok (ev.startDateTime.getD [], path)

/-- One iteration of the event loop in main: skip filtered events, run
create_meeting_note under try, append its pair on success and swallow the
exception (after logging) on failure. -/
def processStep (env : CalendarEnv) (acc : List (Str × Str)) (ev : Event) :
    List (Str × Str) :=
  if shouldSkipEvent ev userEmailDefault then acc
  else
    match createMeetingNote env ev with
    | Except.ok r => acc ++ [r]
    | Except.error _ => acc

/-- The event loop of main: the accumulated meeting_files list. -/
def processCalendarEvents (env : CalendarEnv) (events : List Event) : List (Str × Str) :=
  events.foldl (processStep env) []

/-!
Daily-note merge (update_daily_note in
skills/daily-planner/process_calendar.py).  The function edits the document
text as a whole: locate the meetings header, cut the section at the next
line starting with a hash, scan the section lines into three zones, merge
and resort the links, splice the rebuilt section back.
-/

/-- The meetings section header searched for by update_daily_note. -/
def meetingsHeader : Str := "# 📅 Meetings".data

/-- The two-character needle of content.find for the end of the section: a
newline followed by a hash. -/
def nlHash : Str := ['\n', '#']

/-- Test of the in-list branch: line.strip().startswith of the link
opener. -/
def isLinkLine (l : Str) : Bool := "- [[".data.isPrefixOf (pstrip l)

/-- Truthiness of line.strip(). -/
def isBlankLine (l : Str) : Bool := (pstrip l).isEmpty

/-- Wikilink list item built for a meeting stem. -/
def mkLink (stem : Str) : Str := "- [[".data ++ stem ++ "]]".data

/-- Stem recovery from a stored link line: strip, drop the four opener
characters, drop the two closing brackets (the Python slice 4:-2). -/
def extractStem (l : Str) : Str :=
  let t := (pstrip l).drop 4
  t.take (t.length - 2)

/-- Scanner state of the section loop of update_daily_note: collected
existing link lines (stripped), the before-list and after-list zones, and
the two progress flags. -/
structure ScanState where
  existing : List Str
  beforeList : List Str
  afterList : List Str
  inList : Bool
  listEnded : Bool
deriving DecidableEq

/-- Initial scanner state. -/
def initScan : ScanState :=
  { existing := [], beforeList := [], afterList := [], inList := false, listEnded := false }

/-- One iteration of the section loop: the five branches of the source in
order (the last two source branches both append to before_list and are
merged; the remaining case, a blank line inside the list run, is dropped). -/
def scanLine (st : ScanState) (line : Str) : ScanState :=
  if isLinkLine line && !st.listEnded then
    { st with inList := true, existing := st.existing ++ [pstrip line] }
  else if st.inList && !isBlankLine line && !isLinkLine line then
    { st with listEnded := true, afterList := st.afterList ++ [line] }
  else if st.listEnded then
    { st with afterList := st.afterList ++ [line] }
  else if !st.inList then
    { st with beforeList := st.beforeList ++ [line] }
  else st

/-- The scan of all section lines after the header line. -/
def scanSection (ls : List Str) : ScanState := ls.foldl scanLine initScan

/-- Oracle for the start-time recovery of the merge: for a stem, the
rglob over MEETINGS followed by get_meeting_start_time, with the empty
string when no file is found or the file has no start field. -/
structure MergeEnv where
  startTimeOf : Str → Str

/-- The new_meeting_links list of update_daily_note: the incoming
(start_time, path-stem) pairs sorted by start time (Python sorted with key
the first component is a stable sort), turned into link lines, deduplicated
keeping first occurrences. -/
def newMeetingLinks (pairs : List (Str × Str)) : List Str :=
  dedupFirst
    ((List.insertionSort (fun p q : Str × Str => lexLt p.1 q.1 = true ∨ p.1 = q.1) pairs).map
      (fun p => mkLink p.2))

instance : DecidableRel (fun p q : Str × Str => lexLt p.1 q.1 = true ∨ p.1 = q.1) :=
  fun _ _ => by infer_instance

/-- The merged, resorted (start_time, link) pairs of update_daily_note:
stems of the existing link lines united with stems of the new links (the
source collects them into a set; the union is deduplicated here in first
encounter order, which leads to the same sorted output because the sort key
pairs are pairwise distinct), each stem is paired with its recovered start
time, and the pairs are sorted by Python tuple comparison. -/
def mergedTimes (env : MergeEnv) (existing : List Str) (pairs : List (Str × Str)) :
    List (Str × Str) :=
  let stems := dedupFirst (existing.map extractStem ++ (newMeetingLinks pairs).map extractStem)
  List.insertionSort pairLe (stems.map (fun st => (env.startTimeOf st, mkLink st)))

/-- The rebuilt section lines: header line, the before-list zone (or one
blank line when that zone is empty), the merged links, the after-list
zone. -/
def rebuildSection (headerLine : Str) (st : ScanState) (links : List Str) : List Str :=
  headerLine :: ((if st.beforeList.isEmpty then [[]] else st.beforeList) ++ links ++ st.afterList)

/-- Translation of the content transformation of update_daily_note.  When
the header is present: the section runs from the first occurrence of the
header to the next newline-hash (or the end of the document); its lines
after the first are scanned into zones; the rebuilt section replaces the
original span.  When the header is absent: the right-stripped document, a
blank line, and a fresh section are concatenated.  The search of
content.find for newline-hash from start_idx + 1 is performed on the text
after the header, which is equivalent because no later character of the
header nor its last character can start a newline-hash match. -/
def updateDailyNoteContent (env : MergeEnv) (pairs : List (Str × Str)) (content : Str) :
    Str :=
  match splitFirst meetingsHeader content with
  | none =>
    rstrip content ++ "\n\n".data ++ meetingsHeader ++ "\n\n".data ++
      joinLines (newMeetingLinks pairs) ++ ['\n']
  | some (pre, rest) =>
    let cut := splitFirst nlHash rest
    let sectionText := meetingsHeader ++ (match cut with
      | some (r1, _) => r1
      | none => rest)
    let tailText : Str := match cut with
      | some (_, r2) => nlHash ++ r2
      | none => []
    let lines := splitLines sectionText
    let st := scanSection (lines.drop 1)
    let links := (mergedTimes env st.existing pairs).map Prod.snd
    pre ++ joinLines (rebuildSection (lines.headD []) st links) ++ tailText

/-!
Library lemmas about the string utilities, used by the merge proofs.
-/

theorem splitLines_ne_nil (s : Str) : splitLines s ≠ [] := by
  induction s with
  | nil => simp [splitLines]
  | cons c cs ih =>
    by_cases h : c = '\n'
    · simp [splitLines, h]
    · simp only [splitLines, if_neg h]
      cases hcs : splitLines cs with
      | nil => simp
      | cons l ls => simp

theorem mem_splitLines_noNl {s : Str} {l : Str} (hl : l ∈ splitLines s) : '\n' ∉ l := by
  induction s generalizing l with
  | nil => simp [splitLines] at hl; simp [hl]
  | cons c cs ih =>
    by_cases h : c = '\n'
    · simp only [splitLines, if_pos h, List.mem_cons] at hl
      rcases hl with rfl | hl
      · simp
      · exact ih hl
    · simp only [splitLines, if_neg h] at hl
      cases hcs : splitLines cs with
      | nil => exact absurd hcs (splitLines_ne_nil cs)
      | cons m ms =>
        rw [hcs] at hl
        rcases List.mem_cons.mp hl with rfl | hl2
        · intro hmem
          rcases List.mem_cons.mp hmem with h1 | h1
          · exact h h1.symm
          · exact ih (hcs ▸ List.mem_cons_self m ms) h1
        · exact ih (hcs ▸ List.mem_cons_of_mem m hl2)

theorem joinLines_cons (a : Str) {ls : List Str} (h : ls ≠ []) :
    joinLines (a :: ls) = a ++ '\n' :: joinLines ls := by
  cases ls with
  | nil => exact absurd rfl h
  | cons b bs => rfl

theorem splitLines_append_noNl {a : Str} (ha : '\n' ∉ a) (b : Str) :
    splitLines (a ++ b) = List.modifyHead (fun x => a ++ x) (splitLines b) := by
  induction a with
  | nil =>
    cases hb : splitLines b with
    | nil => exact absurd hb (splitLines_ne_nil b)
    | cons m ms => simp [hb]
  | cons c cs ih =>
    have hc : c ≠ '\n' := by intro h; exact ha (h ▸ List.mem_cons_self c cs)
    have hcs : '\n' ∉ cs := fun h => ha (List.mem_cons_of_mem c h)
    cases hb : splitLines b with
    | nil => exact absurd hb (splitLines_ne_nil b)
    | cons m ms =>
      have ih2 : splitLines (cs ++ b) = (cs ++ m) :: ms := by
        rw [ih hcs, hb]; rfl
      show splitLines (c :: (cs ++ b)) = _
      simp only [splitLines, if_neg hc, ih2]
      rfl

theorem splitLines_noNl_single {l : Str} (h : '\n' ∉ l) : splitLines l = [l] := by
  induction l with
  | nil => rfl
  | cons c cs ih =>
    have hc : c ≠ '\n' := by intro hh; exact h (hh ▸ List.mem_cons_self c cs)
    have hcs : '\n' ∉ cs := fun hh => h (List.mem_cons_of_mem c hh)
    simp only [splitLines, if_neg hc, ih hcs]

theorem splitLines_joinLines {ls : List Str} (hne : ls ≠ [])
    (h : ∀ l ∈ ls, '\n' ∉ l) : splitLines (joinLines ls) = ls := by
  induction ls with
  | nil => exact absurd rfl hne
  | cons a as ih =>
    cases as with
    | nil => exact splitLines_noNl_single (h a (List.mem_cons_self a []))
    | cons b bs =>
      rw [joinLines_cons a (by simp)]
      rw [splitLines_append_noNl (h a (List.mem_cons_self a (b :: bs)))]
      have hnl : splitLines ('\n' :: joinLines (b :: bs)) =
          [] :: splitLines (joinLines (b :: bs)) := by
        simp [splitLines]
      rw [hnl, ih (by simp) (fun l hl => h l (List.mem_cons_of_mem a hl))]
      simp

theorem splitFirst_cons_of_isPrefixOf (p : Char) (ps c : Str) :
    splitFirst (p :: ps) ((p :: ps) ++ c) = some ([], c) := by
  have hp : (p :: ps).isPrefixOf ((p :: ps) ++ c) = true :=
    List.isPrefixOf_iff_prefix.mpr (List.prefix_append _ _)
  have hshape : (p :: ps) ++ c = p :: (ps ++ c) := rfl
  rw [hshape] at hp ⊢
  simp only [splitFirst, if_pos hp]
  rw [List.length_cons, List.drop_succ_cons, List.drop_left]

theorem splitFirst_nil_left (c : Str) : splitFirst ([] : Str) c = some ([], c) := by
  cases c with
  | nil => rfl
  | cons d ds => simp [splitFirst, List.isPrefixOf]

theorem splitFirst_eq {pat s a b : Str} (h : splitFirst pat s = some (a, b)) :
    s = a ++ pat ++ b := by
  induction s generalizing a b with
  | nil =>
    simp only [splitFirst] at h
    by_cases hp : pat.isPrefixOf ([] : Str) = true
    · rw [if_pos hp] at h
      have hpe : pat = [] := List.prefix_nil.mp (List.isPrefixOf_iff_prefix.mp hp)
      simp only [Option.some.injEq, Prod.mk.injEq] at h
      obtain ⟨h1, h2⟩ := h
      subst h1; subst h2; subst hpe; rfl
    · rw [if_neg hp] at h
      exact Option.noConfusion h
  | cons c cs ih =>
    simp only [splitFirst] at h
    by_cases hp : pat.isPrefixOf (c :: cs) = true
    · rw [if_pos hp] at h
      simp only [Option.some.injEq, Prod.mk.injEq] at h
      obtain ⟨h1, h2⟩ := h
      subst h1
      obtain ⟨t, ht⟩ := List.isPrefixOf_iff_prefix.mp hp
      subst h2
      rw [← ht, List.drop_left]
      simp
    · rw [if_neg hp] at h
      cases hrec : splitFirst pat cs with
      | none => rw [hrec] at h; exact Option.noConfusion h
      | some p =>
        rw [hrec] at h
        simp only [Option.map_some', Option.some.injEq, Prod.mk.injEq] at h
        obtain ⟨h1, h2⟩ := h
        have := ih hrec
        rw [← h1, ← h2]
        simp [this]

theorem splitFirst_replay {pat s a b : Str} (h : splitFirst pat s = some (a, b)) :
    ∀ c : Str, splitFirst pat (a ++ pat ++ c) = some (a, c) := by
  induction s generalizing a b with
  | nil =>
    intro c
    simp only [splitFirst] at h
    by_cases hp : pat.isPrefixOf ([] : Str) = true
    · rw [if_pos hp] at h
      have hpe : pat = [] := List.prefix_nil.mp (List.isPrefixOf_iff_prefix.mp hp)
      simp only [Option.some.injEq, Prod.mk.injEq] at h
      obtain ⟨h1, h2⟩ := h
      subst h1; subst hpe
      exact splitFirst_nil_left c
    · rw [if_neg hp] at h
      exact Option.noConfusion h
  | cons x xs ih =>
    intro c
    simp only [splitFirst] at h
    by_cases hp : pat.isPrefixOf (x :: xs) = true
    · rw [if_pos hp] at h
      simp only [Option.some.injEq, Prod.mk.injEq] at h
      obtain ⟨h1, h2⟩ := h
      subst h1
      cases pat with
      | nil => exact splitFirst_nil_left c
      | cons p ps => exact splitFirst_cons_of_isPrefixOf p ps c
    · rw [if_neg hp] at h
      cases hrec : splitFirst pat xs with
      | none => rw [hrec] at h; exact Option.noConfusion h
      | some q =>
        rw [hrec] at h
        simp only [Option.map_some', Option.some.injEq, Prod.mk.injEq] at h
        obtain ⟨h1, h2⟩ := h
        have hxs : xs = q.1 ++ pat ++ q.2 := splitFirst_eq (by rw [hrec])
        have hnp : ¬ pat.isPrefixOf (x :: (q.1 ++ pat ++ c)) = true := by
          intro hcon
          apply hp
          have hpre : pat <+: x :: (q.1 ++ pat ++ c) := List.isPrefixOf_iff_prefix.mp hcon
          have hmid : (x :: q.1) ++ pat <+: x :: (q.1 ++ pat ++ c) := by
            refine ⟨c, ?_⟩; simp
          have hshort : pat <+: (x :: q.1) ++ pat :=
            List.prefix_of_prefix_length_le hpre hmid (by simp; omega)
          apply List.isPrefixOf_iff_prefix.mpr
          have : x :: xs = ((x :: q.1) ++ pat) ++ q.2 := by rw [hxs]; simp
          rw [this]
          exact hshort.trans (List.prefix_append _ _)
        have hgoal : a ++ pat ++ c = x :: (q.1 ++ pat ++ c) := by rw [← h1]; simp
        rw [hgoal]
        simp only [splitFirst, if_neg hnp]
        rw [ih (by rw [hrec]) c]
        simp only [Option.map_some', Option.some.injEq, Prod.mk.injEq]
        exact ⟨h1, trivial⟩

theorem splitFirst_none_of_eq_none {pat s : Str} (h : splitFirst pat s = none) :
    ∀ u v : Str, s ≠ u ++ pat ++ v := by
  induction s with
  | nil =>
    intro u v hcon
    simp only [splitFirst] at h
    by_cases hp : pat.isPrefixOf ([] : Str) = true
    · rw [if_pos hp] at h; exact Option.noConfusion h
    · apply hp
      have hu : u = [] := by
        cases u with
        | nil => rfl
        | cons d ds => exact List.noConfusion hcon
      subst hu
      simp only [List.nil_append] at hcon
      have hpe : pat = [] := by
        cases pat with
        | nil => rfl
        | cons p ps => exact List.noConfusion hcon
      simp [hpe, List.isPrefixOf]
  | cons c cs ih =>
    intro u v hcon
    simp only [splitFirst] at h
    by_cases hp : pat.isPrefixOf (c :: cs) = true
    · rw [if_pos hp] at h; exact Option.noConfusion h
    · rw [if_neg hp] at h
      cases hrec : splitFirst pat cs with
      | some p => rw [hrec] at h; exact Option.noConfusion h
      | none =>
        cases u with
        | nil =>
          apply hp
          apply List.isPrefixOf_iff_prefix.mpr
          refine ⟨v, ?_⟩
          simp only [List.nil_append] at hcon
          rw [← hcon]
        | cons d ds =>
          injection hcon with h1 h2
          exact ih hrec ds v h2

/-- Absence of a newline-hash occurrence, phrased as a scan: no position
holds a newline immediately followed by a hash. -/
def noNlHashB : Str → Bool
  | [] => true
  | c :: cs => if c = '\n' ∧ cs.head? = some '#' then false else noNlHashB cs

theorem isPrefixOf_nlHash_cons (c : Char) (cs : Str) :
    nlHash.isPrefixOf (c :: cs) = (decide (c = '\n') && decide (cs.head? = some '#')) := by
  cases cs with
  | nil =>
    rw [decide_eq_false (by simp : ¬ (([] : Str).head? = some '#')), Bool.and_false]
    simp [nlHash, List.isPrefixOf]
  | cons d ds =>
    have lhs : nlHash.isPrefixOf (c :: d :: ds) = (('\n' == c) && ('#' == d)) := by
      simp [nlHash, List.isPrefixOf]
    rw [lhs]
    have e1 : ('\n' == c) = decide (c = '\n') := by
      rcases Decidable.em (c = '\n') with h | h
      · subst h; simp
      · rw [decide_eq_false h]
        exact beq_eq_false_iff_ne.mpr (fun hh => h hh.symm)
    have e2 : ('#' == d) = decide ((d :: ds).head? = some '#') := by
      rcases Decidable.em (d = '#') with h | h
      · subst h; simp
      · have hh2 : ¬ ((d :: ds).head? = some '#') := by simp [h]
        rw [decide_eq_false hh2]
        exact beq_eq_false_iff_ne.mpr (fun hh => h hh.symm)
    rw [e1, e2]

theorem noNlHashB_cons (c : Char) (cs : Str) :
    noNlHashB (c :: cs) = if c = '\n' ∧ cs.head? = some '#' then false else noNlHashB cs := rfl

theorem splitFirst_nlHash_of_noNlHash {s : Str} (h : noNlHashB s = true) :
    splitFirst nlHash s = none := by
  induction s with
  | nil => simp [splitFirst, nlHash, List.isPrefixOf]
  | cons c cs ih =>
    rw [noNlHashB_cons] at h
    by_cases hc : c = '\n' ∧ cs.head? = some '#'
    · rw [if_pos hc] at h; exact absurd h (by simp)
    · rw [if_neg hc] at h
      have hp : nlHash.isPrefixOf (c :: cs) = false := by
        rw [isPrefixOf_nlHash_cons]
        rcases Decidable.em (c = '\n') with h1 | h1
        · have hh : ¬ cs.head? = some '#' := fun h2 => hc ⟨h1, h2⟩
          rw [decide_eq_false hh]; simp
        · rw [decide_eq_false h1]; simp
      simp only [splitFirst, hp]
      rw [ih h]
      simp

theorem splitFirst_nlHash_append {X : Str} (h : noNlHashB X = true) (r : Str) :
    splitFirst nlHash (X ++ nlHash ++ r) = some (X, r) := by
  induction X with
  | nil => exact splitFirst_cons_of_isPrefixOf '\n' ['#'] r
  | cons c X2 ih =>
    rw [noNlHashB_cons] at h
    by_cases hc : c = '\n' ∧ X2.head? = some '#'
    · rw [if_pos hc] at h; exact absurd h (by simp)
    · rw [if_neg hc] at h
      have hp : nlHash.isPrefixOf (c :: (X2 ++ nlHash ++ r)) = false := by
        rw [isPrefixOf_nlHash_cons]
        rcases Decidable.em (c = '\n') with h1 | h1
        · have hhd : ¬ (X2 ++ nlHash ++ r).head? = some '#' := by
            cases X2 with
            | nil => simp [nlHash]
            | cons d ds =>
              simp only [List.cons_append, List.head?_cons, Option.some.injEq]
              intro hd
              exact hc ⟨h1, by simp [hd]⟩
          rw [decide_eq_false hhd]; simp
        · rw [decide_eq_false h1]; simp
      have hshape : (c :: X2) ++ nlHash ++ r = c :: (X2 ++ nlHash ++ r) := by simp
      rw [hshape]
      simp only [splitFirst, hp]
      rw [ih h]
      simp

theorem noNlHash_of_splitFirst_some {s a b : Str} (h : splitFirst nlHash s = some (a, b)) :
    noNlHashB a = true := by
  induction s generalizing a b with
  | nil =>
    simp only [splitFirst, nlHash, List.isPrefixOf] at h
    exact Option.noConfusion h
  | cons c cs ih =>
    simp only [splitFirst] at h
    by_cases hp : nlHash.isPrefixOf (c :: cs) = true
    · rw [if_pos hp] at h
      simp only [Option.some.injEq, Prod.mk.injEq] at h
      rw [← h.1]
      rfl
    · rw [if_neg hp] at h
      cases hrec : splitFirst nlHash cs with
      | none => rw [hrec] at h; exact Option.noConfusion h
      | some q =>
        rw [hrec] at h
        simp only [Option.map_some', Option.some.injEq, Prod.mk.injEq] at h
        rw [← h.1, noNlHashB_cons]
        have hcond : ¬ (c = '\n' ∧ q.1.head? = some '#') := by
          rintro ⟨hc, hq⟩
          apply hp
          rw [isPrefixOf_nlHash_cons]
          have hcs : cs = q.1 ++ nlHash ++ q.2 := splitFirst_eq (by rw [hrec])
          have : cs.head? = some '#' := by
            cases hq1 : q.1 with
            | nil => rw [hq1] at hq; simp at hq
            | cons e es =>
              rw [hq1] at hq
              simp only [List.head?_cons, Option.some.injEq] at hq
              rw [hcs, hq1]
              simp [hq]
          simp [hc, this]
        rw [if_neg hcond]
        exact ih hrec

theorem noNlHash_of_splitFirst_none {s : Str} (h : splitFirst nlHash s = none) :
    noNlHashB s = true := by
  induction s with
  | nil => rfl
  | cons c cs ih =>
    simp only [splitFirst] at h
    by_cases hp : nlHash.isPrefixOf (c :: cs) = true
    · rw [if_pos hp] at h; exact Option.noConfusion h
    · rw [if_neg hp] at h
      cases hrec : splitFirst nlHash cs with
      | some q => rw [hrec] at h; simp at h
      | none =>
        rw [noNlHashB_cons]
        have hcond : ¬ (c = '\n' ∧ cs.head? = some '#') := by
          rintro ⟨hc, hcs⟩
          apply hp
          rw [isPrefixOf_nlHash_cons]
          simp [hc, hcs]
        rw [if_neg hcond]
        exact ih hrec

theorem splitLines_head_hash {cs m : Str} {ms : List Str} (h : splitLines cs = m :: ms)
    (hm : m.head? = some '#') : cs.head? = some '#' := by
  cases cs with
  | nil =>
    simp only [splitLines, List.cons.injEq] at h
    rw [← h.1] at hm
    simp at hm
  | cons d ds =>
    by_cases hd : d = '\n'
    · simp only [splitLines, if_pos hd, List.cons.injEq] at h
      rw [← h.1] at hm
      simp at hm
    · simp only [splitLines, if_neg hd] at h
      cases hds : splitLines ds with
      | nil => exact absurd hds (splitLines_ne_nil ds)
      | cons t ts =>
        rw [hds] at h
        simp only [List.cons.injEq] at h
        rw [← h.1] at hm
        simp only [List.head?_cons, Option.some.injEq] at hm
        simp [hm]

theorem splitLines_tail_no_hash {s : Str} (h : noNlHashB s = true) :
    ∀ l ∈ (splitLines s).tail, l.head? ≠ some '#' := by
  induction s with
  | nil => simp [splitLines]
  | cons c cs ih =>
    rw [noNlHashB_cons] at h
    by_cases hc : c = '\n' ∧ cs.head? = some '#'
    · rw [if_pos hc] at h; exact absurd h (by simp)
    · rw [if_neg hc] at h
      intro l hl
      by_cases hcn : c = '\n'
      · simp only [splitLines, if_pos hcn, List.tail_cons] at hl
        cases hcs : splitLines cs with
        | nil => exact absurd hcs (splitLines_ne_nil cs)
        | cons m ms =>
          rw [hcs] at hl
          rcases List.mem_cons.mp hl with rfl | hl2
          · intro hlh
            exact hc ⟨hcn, splitLines_head_hash hcs hlh⟩
          · exact ih h l (by rw [hcs]; exact hl2)
      · simp only [splitLines, if_neg hcn] at hl
        cases hcs : splitLines cs with
        | nil => exact absurd hcs (splitLines_ne_nil cs)
        | cons m ms =>
          rw [hcs] at hl
          simp only [List.tail_cons] at hl
          exact ih h l (by rw [hcs, List.tail_cons]; exact hl)

theorem noNlHashB_of_noNl {l : Str} (h : '\n' ∉ l) : noNlHashB l = true := by
  induction l with
  | nil => rfl
  | cons c cs ih =>
    rw [noNlHashB_cons]
    have hc : c ≠ '\n' := by intro hh; exact h (hh ▸ List.mem_cons_self c cs)
    rw [if_neg (by rintro ⟨h1, _⟩; exact hc h1)]
    exact ih (fun hh => h (List.mem_cons_of_mem c hh))

theorem noNlHashB_line_append {l J : Str} (hl : '\n' ∉ l)
    (hJ : noNlHashB ('\n' :: J) = true) : noNlHashB (l ++ '\n' :: J) = true := by
  induction l with
  | nil => exact hJ
  | cons c l2 ih =>
    have hc : c ≠ '\n' := by intro hh; exact hl (hh ▸ List.mem_cons_self c l2)
    have hl2 : '\n' ∉ l2 := fun hh => hl (List.mem_cons_of_mem c hh)
    rw [List.cons_append, noNlHashB_cons]
    rw [if_neg (by rintro ⟨h1, _⟩; exact hc h1)]
    exact ih hl2

theorem joinLines_head_cases (x : Str) (xs : List Str) :
    (joinLines (x :: xs)).head? = x.head? ∨ (joinLines (x :: xs)).head? = some '\n' := by
  cases x with
  | nil =>
    cases xs with
    | nil => left; rfl
    | cons y ys => right; rfl
  | cons c cx =>
    cases xs with
    | nil => left; rfl
    | cons y ys => left; rfl

theorem noNlHashB_joined {ls : List Str} (h1 : ∀ l ∈ ls, '\n' ∉ l)
    (h2 : ∀ l ∈ ls.tail, l.head? ≠ some '#') : noNlHashB (joinLines ls) = true := by
  induction ls with
  | nil => rfl
  | cons a as ih =>
    cases as with
    | nil => exact noNlHashB_of_noNl (h1 a (List.mem_cons_self a []))
    | cons b bs =>
      rw [joinLines_cons a (by simp)]
      apply noNlHashB_line_append (h1 a (List.mem_cons_self a (b :: bs)))
      rw [noNlHashB_cons]
      have hhd : ¬ ((joinLines (b :: bs)).head? = some '#') := by
        intro hcon
        rcases joinLines_head_cases b bs with hk | hk
        · rw [hk] at hcon
          exact h2 b (List.mem_cons_self b bs) hcon
        · rw [hk] at hcon
          simp at hcon
      rw [if_neg (by rintro ⟨_, hx⟩; exact hhd hx)]
      apply ih
      · exact fun l hl => h1 l (List.mem_cons_of_mem a hl)
      · intro l hl
        exact h2 l (List.mem_cons_of_mem b hl)

/-!
Lemmas about the section scanner.
-/

theorem scan_before_step {l : Str} (hl : isLinkLine l = false) (e b a : List Str) :
    scanLine ⟨e, b, a, false, false⟩ l = ⟨e, b ++ [l], a, false, false⟩ := by
  simp [scanLine, hl]

theorem scan_before (B : List Str) (hB : ∀ x ∈ B, isLinkLine x = false) :
    ∀ (rest : List Str) (e b a : List Str),
      List.foldl scanLine ⟨e, b, a, false, false⟩ (B ++ rest) =
        List.foldl scanLine ⟨e, b ++ B, a, false, false⟩ rest := by
  induction B with
  | nil => intro rest e b a; simp
  | cons x xs ih =>
    intro rest e b a
    have hx : isLinkLine x = false := hB x (List.mem_cons_self x xs)
    rw [List.cons_append, List.foldl_cons, scan_before_step hx,
      ih (fun y hy => hB y (List.mem_cons_of_mem x hy)) rest e (b ++ [x]) a,
      show (b ++ [x]) ++ xs = b ++ x :: xs from by simp]

theorem scan_link_step {l : Str} (hl : isLinkLine l = true) (e b a : List Str) (il : Bool) :
    scanLine ⟨e, b, a, il, false⟩ l = ⟨e ++ [pstrip l], b, a, true, false⟩ := by
  simp [scanLine, hl]

theorem scan_links (L : List Str) (hL : ∀ x ∈ L, isLinkLine x = true) :
    ∀ (rest : List Str) (e b a : List Str),
      List.foldl scanLine ⟨e, b, a, true, false⟩ (L ++ rest) =
        List.foldl scanLine ⟨e ++ L.map pstrip, b, a, true, false⟩ rest := by
  induction L with
  | nil => intro rest e b a; simp
  | cons x xs ih =>
    intro rest e b a
    have hx : isLinkLine x = true := hL x (List.mem_cons_self x xs)
    rw [List.cons_append, List.foldl_cons, scan_link_step hx,
      ih (fun y hy => hL y (List.mem_cons_of_mem x hy)) rest (e ++ [pstrip x]) b a,
      List.map_cons,
      show (e ++ [pstrip x]) ++ xs.map pstrip = e ++ pstrip x :: xs.map pstrip from by simp]

theorem scan_after_step {h : Str} (hb : isBlankLine h = false) (hl : isLinkLine h = false)
    (e b a : List Str) : scanLine ⟨e, b, a, true, false⟩ h = ⟨e, b, a ++ [h], true, true⟩ := by
  simp [scanLine, hb, hl]

theorem scan_ended_all (t : List Str) :
    ∀ (e b a : List Str),
      List.foldl scanLine ⟨e, b, a, true, true⟩ t = ⟨e, b, a ++ t, true, true⟩ := by
  induction t with
  | nil => intro e b a; simp
  | cons x xs ih =>
    intro e b a
    have hstep : scanLine ⟨e, b, a, true, true⟩ x = ⟨e, b, a ++ [x], true, true⟩ := by
      by_cases hx : isLinkLine x = true
      · simp [scanLine, hx]
      · by_cases hbl : isBlankLine x = true
        · simp [scanLine, hx, hbl]
        · simp [scanLine, hx, hbl]
    rw [List.foldl_cons, hstep, ih e b (a ++ [x]),
      show (a ++ [x]) ++ xs = a ++ x :: xs from by simp]

theorem scanSection_structured (B L A : List Str)
    (hB : ∀ x ∈ B, isLinkLine x = false)
    (hL : ∀ x ∈ L, isLinkLine x = true) (hLne : L ≠ [])
    (hA : A = [] ∨ ∃ h t, A = h :: t ∧ isBlankLine h = false ∧ isLinkLine h = false) :
    scanSection (B ++ L ++ A) = ⟨L.map pstrip, B, A, true, !A.isEmpty⟩ := by
  unfold scanSection initScan
  rw [List.append_assoc, scan_before B hB (L ++ A) [] [] []]
  cases L with
  | nil => exact absurd rfl hLne
  | cons l L2 =>
    have hl : isLinkLine l = true := hL l (List.mem_cons_self l L2)
    rw [List.cons_append, List.foldl_cons, scan_link_step hl,
      scan_links L2 (fun y hy => hL y (List.mem_cons_of_mem l hy)) A ([] ++ [pstrip l]) ([] ++ B) [],
      show ([] ++ [pstrip l] : List Str) ++ L2.map pstrip = (l :: L2).map pstrip from by simp]
    rcases hA with rfl | ⟨h, t, rfl, hhb, hhl⟩
    · simp
    · rw [List.foldl_cons, scan_after_step hhb hhl,
        scan_ended_all t ((l :: L2).map pstrip) ([] ++ B) ([] ++ [h])]
      simp

theorem scanSection_before_only (B : List Str) (hB : ∀ x ∈ B, isLinkLine x = false) :
    scanSection B = ⟨[], B, [], false, false⟩ := by
  unfold scanSection initScan
  rw [show B = B ++ ([] : List Str) from by simp, scan_before B hB [] [] [] []]
  simp

/-- Invariant of the section scanner state: the flags are monotone
(listEnded implies inList), a started list has collected a link, the
after-list zone is nonempty exactly when the list has ended and starts with
a non-blank non-link line, and the before-list zone holds no link lines. -/
def ScanInv (st : ScanState) : Prop :=
  (st.listEnded = true → st.inList = true) ∧
  (st.inList = true → st.existing ≠ []) ∧
  (st.afterList ≠ [] → st.listEnded = true) ∧
  (st.listEnded = true → st.afterList ≠ []) ∧
  (∀ x ∈ st.beforeList, isLinkLine x = false) ∧
  (st.afterList = [] ∨
    ∃ h t, st.afterList = h :: t ∧ isBlankLine h = false ∧ isLinkLine h = false)

theorem scanLine_inv {st : ScanState} {l : Str} (h : ScanInv st) : ScanInv (scanLine st l) := by
  obtain ⟨i1, i2, i3, i4, i5, i6⟩ := h
  unfold scanLine
  by_cases c1 : (isLinkLine l && !st.listEnded) = true
  · rw [if_pos c1]
    refine ⟨fun hh => rfl, fun _ => by simp, fun hh => i3 hh, fun hh => ?_, i5, i6⟩
    simp only [Bool.and_eq_true, Bool.not_eq_true'] at c1
    exact absurd hh (by simp [c1.2])
  · rw [if_neg c1]
    by_cases c2 : (st.inList && !isBlankLine l && !isLinkLine l) = true
    · rw [if_pos c2]
      simp only [Bool.and_eq_true, Bool.not_eq_true'] at c2
      refine ⟨fun _ => c2.1.1, fun _ => i2 c2.1.1, fun _ => rfl, fun _ => by simp, i5, ?_⟩
      rcases i6 with h6 | ⟨hh, tt, heq, hb2, hl2⟩
      · right
        exact ⟨l, [], by simp [h6], c2.1.2, c2.2⟩
      · right
        exact ⟨hh, tt ++ [l], by simp [heq], hb2, hl2⟩
    · by_cases c3 : st.listEnded = true
      · rw [if_neg c2, if_pos c3]
        refine ⟨fun _ => i1 c3, fun hh => i2 hh, fun _ => c3, fun _ => by simp, i5, ?_⟩
        rcases i6 with h6 | ⟨hh, tt, heq, hb2, hl2⟩
        · exact absurd h6 (i4 c3)
        · right
          exact ⟨hh, tt ++ [l], by simp [heq], hb2, hl2⟩
      · by_cases c4 : st.inList = false
        · rw [if_neg c2, if_neg c3, if_pos (show (!st.inList) = true by simp [c4])]
          refine ⟨fun hh => absurd hh c3, fun hh => i2 hh, fun hh => i3 hh,
            fun hh => absurd hh c3, ?_, i6⟩
          intro x hx
          rcases List.mem_append.mp hx with hx1 | hx2
          · exact i5 x hx1
          · have hxl : x = l := by simpa using hx2
            subst hxl
            have hle : st.listEnded = false := by simpa using c3
            rcases Decidable.em (isLinkLine x = true) with hh | hh
            · exact absurd (by simp [hh, hle]) c1
            · simpa using hh
        · have c4' : st.inList = true := by simpa using c4
          rw [if_neg c2, if_neg c3, if_neg (show ¬ (!st.inList) = true by simp [c4'])]
          exact ⟨i1, i2, i3, i4, i5, i6⟩

theorem scanInv_init : ScanInv initScan := by
  refine ⟨fun h => by simp [initScan] at h, fun h => by simp [initScan] at h,
    fun h => by simp [initScan] at h, fun h => by simp [initScan] at h,
    fun x hx => by simp [initScan] at hx, Or.inl rfl⟩

theorem scanSection_inv (ls : List Str) : ScanInv (scanSection ls) := by
  unfold scanSection
  have hgen : ∀ (l2 : List Str) (st : ScanState), ScanInv st → ScanInv (List.foldl scanLine st l2) := by
    intro l2
    induction l2 with
    | nil => intro st h; exact h
    | cons x xs ih => intro st h; exact ih (scanLine st x) (scanLine_inv h)
  exact hgen ls initScan scanInv_init

theorem scanLine_zones (st : ScanState) (l : Str) :
    ((scanLine st l).beforeList = st.beforeList ∨
      (scanLine st l).beforeList = st.beforeList ++ [l]) ∧
    ((scanLine st l).afterList = st.afterList ∨
      (scanLine st l).afterList = st.afterList ++ [l]) ∧
    ((scanLine st l).existing = st.existing ∨
      (scanLine st l).existing = st.existing ++ [pstrip l]) := by
  unfold scanLine
  split_ifs <;> simp

theorem scan_zone_mem {P : Str → Prop} (ls : List Str) (hP : ∀ l ∈ ls, P l) :
    ∀ st : ScanState,
      (∀ x ∈ st.beforeList, P x) → (∀ x ∈ st.afterList, P x) →
      (∀ x ∈ st.existing, ∃ l0, P l0 ∧ x = pstrip l0) →
      (∀ x ∈ (List.foldl scanLine st ls).beforeList, P x) ∧
      (∀ x ∈ (List.foldl scanLine st ls).afterList, P x) ∧
      (∀ x ∈ (List.foldl scanLine st ls).existing, ∃ l0, P l0 ∧ x = pstrip l0) := by
  induction ls with
  | nil => intro st h1 h2 h3; exact ⟨h1, h2, h3⟩
  | cons x xs ih =>
    intro st h1 h2 h3
    have hx : P x := hP x (List.mem_cons_self x xs)
    have hxs : ∀ l ∈ xs, P l := fun l hl => hP l (List.mem_cons_of_mem x hl)
    obtain ⟨z1, z2, z3⟩ := scanLine_zones st x
    rw [List.foldl_cons]
    apply (ih hxs) (scanLine st x)
    · intro y hy
      rcases z1 with hz | hz
      · exact h1 y (hz ▸ hy)
      · rw [hz] at hy
        rcases List.mem_append.mp hy with hy1 | hy2
        · exact h1 y hy1
        · have : y = x := by simpa using hy2
          exact this ▸ hx
    · intro y hy
      rcases z2 with hz | hz
      · exact h2 y (hz ▸ hy)
      · rw [hz] at hy
        rcases List.mem_append.mp hy with hy1 | hy2
        · exact h2 y hy1
        · have : y = x := by simpa using hy2
          exact this ▸ hx
    · intro y hy
      rcases z3 with hz | hz
      · exact h3 y (hz ▸ hy)
      · rw [hz] at hy
        rcases List.mem_append.mp hy with hy1 | hy2
        · exact h3 y hy1
        · have : y = pstrip x := by simpa using hy2
          exact ⟨x, hx, this⟩

/-!
Lemmas about links, stems and stripping.
-/

theorem lstrip_cons_of_not_ws {c : Char} (h : isWsChar c = false) (s : Str) :
    lstrip (c :: s) = c :: s := by
  simp [lstrip, List.dropWhile_cons, h]

theorem rstrip_concat_of_not_ws {c : Char} (h : isWsChar c = false) (s : Str) :
    rstrip (s ++ [c]) = s ++ [c] := by
  unfold rstrip
  rw [List.reverse_append]
  simp [List.dropWhile_cons, h]

theorem pstrip_mkLink (s : Str) : pstrip (mkLink s) = mkLink s := by
  have hshape : mkLink s = (("- [[".data ++ s) ++ [']']) ++ [']'] := by
    simp [mkLink]
  unfold pstrip
  rw [hshape, rstrip_concat_of_not_ws (by decide)]
  have hshape2 : (("- [[".data ++ s) ++ [']']) ++ [']'] =
      '-' :: ((" [[".data ++ s) ++ [']'] ++ [']']) := by simp
  rw [hshape2, lstrip_cons_of_not_ws (by decide)]

theorem extractStem_mkLink (s : Str) : extractStem (mkLink s) = s := by
  unfold extractStem
  rw [pstrip_mkLink]
  have h1 : mkLink s = "- [[".data ++ (s ++ "]]".data) := by simp [mkLink]
  rw [h1, show (4 : Nat) = ("- [[".data).length from rfl, List.drop_left]
  show List.take ((s ++ "]]".data).length - 2) (s ++ "]]".data) = s
  have h2 : (s ++ "]]".data).length - 2 = s.length := by simp
  rw [h2]
  exact List.take_left s "]]".data

theorem isLinkLine_mkLink (s : Str) : isLinkLine (mkLink s) = true := by
  unfold isLinkLine
  rw [pstrip_mkLink]
  apply List.isPrefixOf_iff_prefix.mpr
  have : mkLink s = "- [[".data ++ (s ++ "]]".data) := by simp [mkLink]
  rw [this]
  exact List.prefix_append _ _

theorem noNl_mkLink {s : Str} (h : '\n' ∉ s) : '\n' ∉ mkLink s := by
  intro hc
  unfold mkLink at hc
  rcases List.mem_append.mp hc with hc1 | hc2
  · rcases List.mem_append.mp hc1 with hc3 | hc4
    · simp at hc3
    · exact h hc4
  · simp at hc2

theorem head_mkLink (s : Str) : (mkLink s).head? = some '-' := rfl

theorem mem_rstrip {c : Char} {s : Str} (h : c ∈ rstrip s) : c ∈ s := by
  unfold rstrip at h
  rw [List.mem_reverse] at h
  have := (List.dropWhile_sublist (l := s.reverse) (p := isWsChar)).subset h
  rw [List.mem_reverse] at this
  exact this

theorem mem_pstrip {c : Char} {s : Str} (h : c ∈ pstrip s) : c ∈ s := by
  unfold pstrip lstrip at h
  have h2 := (List.dropWhile_sublist (l := rstrip s) (p := isWsChar)).subset h
  exact mem_rstrip h2

theorem mem_extractStem {c : Char} {s : Str} (h : c ∈ extractStem s) : c ∈ pstrip s := by
  unfold extractStem at h
  have h2 := List.take_subset _ _ h
  exact List.drop_subset _ _ h2

/-!
Lemmas about deduplication.
-/

theorem mem_dedupAcc {α : Type} [DecidableEq α] (a : α) :
    ∀ (l seen : List α), a ∈ dedupAcc seen l ↔ a ∈ l ∧ a ∉ seen := by
  intro l
  induction l with
  | nil => intro seen; simp [dedupAcc]
  | cons b bs ih =>
    intro seen
    by_cases hb : b ∈ seen
    · rw [show dedupAcc seen (b :: bs) = dedupAcc seen bs from by simp [dedupAcc, hb]]
      rw [ih seen]
      constructor
      · rintro ⟨h1, h2⟩
        exact ⟨List.mem_cons_of_mem b h1, h2⟩
      · rintro ⟨h1, h2⟩
        rcases List.mem_cons.mp h1 with rfl | h3
        · exact absurd hb h2
        · exact ⟨h3, h2⟩
    · rw [show dedupAcc seen (b :: bs) = b :: dedupAcc (seen ++ [b]) bs from by
        simp [dedupAcc, hb]]
      constructor
      · intro h1
        rcases List.mem_cons.mp h1 with rfl | h3
        · exact ⟨List.mem_cons_self a bs, hb⟩
        · obtain ⟨h4, h5⟩ := (ih (seen ++ [b])).mp h3
          refine ⟨List.mem_cons_of_mem b h4, fun hc => h5 (List.mem_append.mpr (Or.inl hc))⟩
      · rintro ⟨h1, h2⟩
        rcases List.mem_cons.mp h1 with rfl | h3
        · exact List.mem_cons_self a _
        · by_cases hab : a = b
          · subst hab; exact List.mem_cons_self a _
          · apply List.mem_cons_of_mem
            apply (ih (seen ++ [b])).mpr
            refine ⟨h3, fun hc => ?_⟩
            rcases List.mem_append.mp hc with hc1 | hc2
            · exact h2 hc1
            · exact hab (by simpa using hc2)

theorem nodup_dedupAcc {α : Type} [DecidableEq α] :
    ∀ (l seen : List α), (dedupAcc seen l).Nodup := by
  intro l
  induction l with
  | nil => intro seen; simp [dedupAcc]
  | cons b bs ih =>
    intro seen
    by_cases hb : b ∈ seen
    · rw [show dedupAcc seen (b :: bs) = dedupAcc seen bs from by simp [dedupAcc, hb]]
      exact ih seen
    · rw [show dedupAcc seen (b :: bs) = b :: dedupAcc (seen ++ [b]) bs from by
        simp [dedupAcc, hb]]
      refine List.nodup_cons.mpr ⟨fun hc => ?_, ih (seen ++ [b])⟩
      obtain ⟨_, h5⟩ := (mem_dedupAcc b bs (seen ++ [b])).mp hc
      exact h5 (List.mem_append.mpr (Or.inr (List.mem_cons_self b [])))

theorem mem_dedupFirst {α : Type} [DecidableEq α] (a : α) (l : List α) :
    a ∈ dedupFirst l ↔ a ∈ l := by
  unfold dedupFirst
  rw [mem_dedupAcc]
  simp

theorem nodup_dedupFirst {α : Type} [DecidableEq α] (l : List α) : (dedupFirst l).Nodup :=
  nodup_dedupAcc l []

/-!
Lemmas about the merged link list.
-/

/-- The deduplicated union of stems consulted by the merge. -/
def mergedStems (ex : List Str) (pairs : List (Str × Str)) : List Str :=
  dedupFirst (ex.map extractStem ++ (newMeetingLinks pairs).map extractStem)

theorem mergedTimes_eq (env : MergeEnv) (ex : List Str) (pairs : List (Str × Str)) :
    mergedTimes env ex pairs =
      List.insertionSort pairLe
        ((mergedStems ex pairs).map (fun st => (env.startTimeOf st, mkLink st))) := rfl

theorem mergedTimes_sorted (env : MergeEnv) (ex : List Str) (pairs : List (Str × Str)) :
    List.Sorted pairLe (mergedTimes env ex pairs) := by
  rw [mergedTimes_eq]
  exact List.sorted_insertionSort pairLe _

theorem insertionSort_eq_of_perm {l1 l2 : List (Str × Str)} (h : l1.Perm l2) :
    List.insertionSort pairLe l1 = List.insertionSort pairLe l2 :=
  @List.eq_of_perm_of_sorted (Str × Str) pairLe _ _ _
    (((List.perm_insertionSort pairLe l1).trans h).trans
      (List.perm_insertionSort pairLe l2).symm)
    (List.sorted_insertionSort pairLe l1)
    (List.sorted_insertionSort pairLe l2)

theorem mergedLinks_stems_perm (env : MergeEnv) (ex : List Str) (pairs : List (Str × Str)) :
    (((mergedTimes env ex pairs).map Prod.snd).map extractStem).Perm (mergedStems ex pairs) := by
  rw [mergedTimes_eq]
  have h1 := (List.perm_insertionSort pairLe
    ((mergedStems ex pairs).map (fun st => (env.startTimeOf st, mkLink st))))
  have h2 := (h1.map Prod.snd).map extractStem
  apply h2.trans
  rw [List.map_map, List.map_map]
  have h3 : ((extractStem ∘ Prod.snd) ∘ fun st => (env.startTimeOf st, mkLink st)) = id := by
    funext st
    simp [extractStem_mkLink]
  rw [h3, List.map_id]

theorem mergedLinks_stems_nodup (env : MergeEnv) (ex : List Str) (pairs : List (Str × Str)) :
    (((mergedTimes env ex pairs).map Prod.snd).map extractStem).Nodup :=
  (mergedLinks_stems_perm env ex pairs).symm.nodup_iff.mp (nodup_dedupFirst _)

theorem mergedTimes_idem (env : MergeEnv) (ex : List Str) (pairs : List (Str × Str)) :
    mergedTimes env ((mergedTimes env ex pairs).map Prod.snd) pairs =
      mergedTimes env ex pairs := by
  have hperm : (mergedStems ((mergedTimes env ex pairs).map Prod.snd) pairs).Perm
      (mergedStems ex pairs) := by
    apply (List.perm_ext_iff_of_nodup (nodup_dedupFirst _) (nodup_dedupFirst _)).mpr
    intro a
    rw [mem_dedupFirst, mem_dedupFirst, List.mem_append, List.mem_append]
    constructor
    · rintro (h1 | h2)
      · have hmm := (mergedLinks_stems_perm env ex pairs).mem_iff.mp h1
        unfold mergedStems at hmm
        rw [mem_dedupFirst, List.mem_append] at hmm
        exact hmm
      · right; exact h2
    · rintro (h1 | h2)
      · left
        apply (mergedLinks_stems_perm env ex pairs).mem_iff.mpr
        show a ∈ dedupFirst (ex.map extractStem ++ (newMeetingLinks pairs).map extractStem)
        rw [mem_dedupFirst, List.mem_append]
        left; exact h1
      · left
        apply (mergedLinks_stems_perm env ex pairs).mem_iff.mpr
        show a ∈ dedupFirst (ex.map extractStem ++ (newMeetingLinks pairs).map extractStem)
        rw [mem_dedupFirst, List.mem_append]
        right; exact h2
  rw [mergedTimes_eq, mergedTimes_eq]
  exact insertionSort_eq_of_perm
    (hperm.map (fun st => (env.startTimeOf st, mkLink st)))

/-!
Unfolding and characterization lemmas for updateDailyNoteContent.
-/

theorem updateDNC_absent {env : MergeEnv} {pairs : List (Str × Str)} {content : Str}
    (h : splitFirst meetingsHeader content = none) :
    updateDailyNoteContent env pairs content =
      rstrip content ++ "\n\n".data ++ meetingsHeader ++ "\n\n".data ++
        joinLines (newMeetingLinks pairs) ++ ['\n'] := by
  simp only [updateDailyNoteContent, h]

theorem updateDNC_present_none {env : MergeEnv} {pairs : List (Str × Str)}
    {content pre rest : Str}
    (h1 : splitFirst meetingsHeader content = some (pre, rest))
    (h2 : splitFirst nlHash rest = none) :
    updateDailyNoteContent env pairs content =
      pre ++ joinLines (rebuildSection ((splitLines (meetingsHeader ++ rest)).headD [])
        (scanSection ((splitLines (meetingsHeader ++ rest)).drop 1))
        ((mergedTimes env (scanSection ((splitLines (meetingsHeader ++ rest)).drop 1)).existing
          pairs).map Prod.snd)) := by
  simp only [updateDailyNoteContent, h1, h2]
  exact List.append_nil _

theorem updateDNC_present_some {env : MergeEnv} {pairs : List (Str × Str)}
    {content pre rest r1 r2 : Str}
    (h1 : splitFirst meetingsHeader content = some (pre, rest))
    (h2 : splitFirst nlHash rest = some (r1, r2)) :
    updateDailyNoteContent env pairs content =
      pre ++ joinLines (rebuildSection ((splitLines (meetingsHeader ++ r1)).headD [])
        (scanSection ((splitLines (meetingsHeader ++ r1)).drop 1))
        ((mergedTimes env (scanSection ((splitLines (meetingsHeader ++ r1)).drop 1)).existing
          pairs).map Prod.snd)) ++ (nlHash ++ r2) := by
  simp only [updateDailyNoteContent, h1, h2]

theorem meetingsHeader_noNl : '\n' ∉ meetingsHeader := by decide

theorem updatePresent_structured (env : MergeEnv) (pairs : List (Str × Str))
    (pre extra tailRest : Str) (B L A : List Str)
    (hpre : splitFirst meetingsHeader
      (pre ++ meetingsHeader ++ (extra ++ ('\n' :: joinLines (B ++ L ++ A)) ++ tailRest)) =
      some (pre, extra ++ ('\n' :: joinLines (B ++ L ++ A)) ++ tailRest))
    (hextra : '\n' ∉ extra)
    (hBnl : ∀ l ∈ B, '\n' ∉ l) (hBlink : ∀ l ∈ B, isLinkLine l = false)
    (hBhash : ∀ l ∈ B, l.head? ≠ some '#')
    (hLnl : ∀ l ∈ L, '\n' ∉ l) (hLlink : ∀ l ∈ L, isLinkLine l = true)
    (hLhash : ∀ l ∈ L, l.head? ≠ some '#')
    (hLne : L ≠ [])
    (hAnl : ∀ l ∈ A, '\n' ∉ l) (hAhash : ∀ l ∈ A, l.head? ≠ some '#')
    (hA : A = [] ∨ ∃ h t, A = h :: t ∧ isBlankLine h = false ∧ isLinkLine h = false)
    (htail : tailRest = [] ∨ ∃ r, tailRest = '\n' :: '#' :: r) :
    updateDailyNoteContent env pairs
      (pre ++ meetingsHeader ++ (extra ++ ('\n' :: joinLines (B ++ L ++ A)) ++ tailRest)) =
    pre ++ joinLines ((meetingsHeader ++ extra) ::
      ((if B.isEmpty then [([] : Str)] else B) ++
        (mergedTimes env (L.map pstrip) pairs).map Prod.snd ++ A)) ++ tailRest := by
  have hzs : (B ++ L ++ A) ≠ [] := by
    intro hc
    rcases List.append_eq_nil.mp hc with ⟨h1, h2⟩
    rcases List.append_eq_nil.mp h1 with ⟨h3, h4⟩
    exact hLne h4
  have hall_nl : ∀ l ∈ extra :: (B ++ L ++ A), '\n' ∉ l := by
    intro l hl
    rcases List.mem_cons.mp hl with rfl | hl2
    · exact hextra
    · rcases List.mem_append.mp hl2 with hl3 | hl4
      · rcases List.mem_append.mp hl3 with hl5 | hl6
        · exact hBnl l hl5
        · exact hLnl l hl6
      · exact hAnl l hl4
  have htail_hash : ∀ l ∈ (extra :: (B ++ L ++ A)).tail, l.head? ≠ some '#' := by
    intro l hl
    simp only [List.tail_cons] at hl
    rcases List.mem_append.mp hl with hl3 | hl4
    · rcases List.mem_append.mp hl3 with hl5 | hl6
      · exact hBhash l hl5
      · exact hLhash l hl6
    · exact hAhash l hl4
  have hJ : noNlHashB (joinLines (extra :: (B ++ L ++ A))) = true :=
    noNlHashB_joined hall_nl htail_hash
  have hrest : extra ++ ('\n' :: joinLines (B ++ L ++ A)) ++ tailRest =
      joinLines (extra :: (B ++ L ++ A)) ++ tailRest := by
    rw [joinLines_cons extra hzs]
  have hlines : splitLines (meetingsHeader ++ joinLines (extra :: (B ++ L ++ A))) =
      (meetingsHeader ++ extra) :: (B ++ L ++ A) := by
    rw [splitLines_append_noNl meetingsHeader_noNl,
      splitLines_joinLines (by simp) hall_nl]
    rfl
  have hscan : scanSection (B ++ L ++ A) = ⟨L.map pstrip, B, A, true, !A.isEmpty⟩ :=
    scanSection_structured B L A hBlink hLlink hLne hA
  rcases htail with rfl | ⟨r, rfl⟩
  · have h2 : splitFirst nlHash (extra ++ ('\n' :: joinLines (B ++ L ++ A)) ++ ([] : Str)) =
        none := by
      rw [hrest]
      simp only [List.append_nil]
      exact splitFirst_nlHash_of_noNlHash hJ
    rw [updateDNC_present_none hpre h2]
    simp only [List.append_nil] at hrest ⊢
    rw [hrest, hlines]
    simp only [List.headD_cons, List.drop_one, List.tail_cons]
    rw [hscan]
    simp [rebuildSection]
  · have h2 : splitFirst nlHash
        (extra ++ ('\n' :: joinLines (B ++ L ++ A)) ++ ('\n' :: '#' :: r)) =
        some (joinLines (extra :: (B ++ L ++ A)), r) := by
      rw [hrest]
      have hap := splitFirst_nlHash_append hJ r
      simpa [nlHash] using hap
    rw [updateDNC_present_some hpre h2]
    rw [hlines]
    simp only [List.headD_cons, List.drop_one, List.tail_cons]
    rw [hscan]
    simp [rebuildSection, nlHash]

theorem updatePresent_structured_nolinks (env : MergeEnv) (pairs : List (Str × Str))
    (pre extra tailRest : Str) (B : List Str)
    (hpre : splitFirst meetingsHeader
      (pre ++ meetingsHeader ++ (extra ++ ('\n' :: joinLines B) ++ tailRest)) =
      some (pre, extra ++ ('\n' :: joinLines B) ++ tailRest))
    (hextra : '\n' ∉ extra)
    (hBnl : ∀ l ∈ B, '\n' ∉ l) (hBlink : ∀ l ∈ B, isLinkLine l = false)
    (hBhash : ∀ l ∈ B, l.head? ≠ some '#')
    (hBne : B ≠ [])
    (htail : tailRest = [] ∨ ∃ r, tailRest = '\n' :: '#' :: r) :
    updateDailyNoteContent env pairs
      (pre ++ meetingsHeader ++ (extra ++ ('\n' :: joinLines B) ++ tailRest)) =
    pre ++ joinLines ((meetingsHeader ++ extra) ::
      (B ++ (mergedTimes env [] pairs).map Prod.snd)) ++ tailRest := by
  have hall_nl : ∀ l ∈ extra :: B, '\n' ∉ l := by
    intro l hl
    rcases List.mem_cons.mp hl with rfl | hl2
    · exact hextra
    · exact hBnl l hl2
  have htail_hash : ∀ l ∈ (extra :: B).tail, l.head? ≠ some '#' := by
    intro l hl
    simp only [List.tail_cons] at hl
    exact hBhash l hl
  have hJ : noNlHashB (joinLines (extra :: B)) = true :=
    noNlHashB_joined hall_nl htail_hash
  have hrest : extra ++ ('\n' :: joinLines B) ++ tailRest =
      joinLines (extra :: B) ++ tailRest := by
    rw [joinLines_cons extra hBne]
  have hlines : splitLines (meetingsHeader ++ joinLines (extra :: B)) =
      (meetingsHeader ++ extra) :: B := by
    rw [splitLines_append_noNl meetingsHeader_noNl,
      splitLines_joinLines (by simp) hall_nl]
    rfl
  have hscan : scanSection B = ⟨[], B, [], false, false⟩ :=
    scanSection_before_only B hBlink
  have hBne2 : B.isEmpty = false := by
    cases B with
    | nil => exact absurd rfl hBne
    | cons x xs => rfl
  rcases htail with rfl | ⟨r, rfl⟩
  · have h2 : splitFirst nlHash (extra ++ ('\n' :: joinLines B) ++ ([] : Str)) = none := by
      rw [hrest]
      simp only [List.append_nil]
      exact splitFirst_nlHash_of_noNlHash hJ
    rw [updateDNC_present_none hpre h2]
    simp only [List.append_nil] at hrest ⊢
    rw [hrest, hlines]
    simp only [List.headD_cons, List.drop_one, List.tail_cons]
    rw [hscan]
    simp [rebuildSection, hBne2]
  · have h2 : splitFirst nlHash
        (extra ++ ('\n' :: joinLines B) ++ ('\n' :: '#' :: r)) =
        some (joinLines (extra :: B), r) := by
      rw [hrest]
      have hap := splitFirst_nlHash_append hJ r
      simpa [nlHash] using hap
    rw [updateDNC_present_some hpre h2]
    rw [hlines]
    simp only [List.headD_cons, List.drop_one, List.tail_cons]
    rw [hscan]
    simp [rebuildSection, nlHash, hBne2]

theorem mem_newMeetingLinks {x : Str} {pairs : List (Str × Str)}
    (h : x ∈ newMeetingLinks pairs) : ∃ p ∈ pairs, x = mkLink p.2 := by
  unfold newMeetingLinks at h
  rw [mem_dedupFirst] at h
  obtain ⟨q, hq, rfl⟩ := List.mem_map.mp h
  exact ⟨q, (List.perm_insertionSort _ pairs).mem_iff.mp hq, rfl⟩

theorem mergedLinks_shape {env : MergeEnv} {ex : List Str} {pairs : List (Str × Str)} {x : Str}
    (h : x ∈ (mergedTimes env ex pairs).map Prod.snd) :
    ∃ s, s ∈ mergedStems ex pairs ∧ x = mkLink s := by
  rw [mergedTimes_eq] at h
  obtain ⟨q, hq, rfl⟩ := List.mem_map.mp h
  have hq2 := (List.perm_insertionSort pairLe _).mem_iff.mp hq
  obtain ⟨s, hs, rfl⟩ := List.mem_map.mp hq2
  exact ⟨s, hs, rfl⟩

theorem mem_mergedStems {ex : List Str} {pairs : List (Str × Str)} {s : Str}
    (h : s ∈ mergedStems ex pairs) :
    (∃ e ∈ ex, s = extractStem e) ∨ (∃ p ∈ pairs, s = p.2) := by
  unfold mergedStems at h
  rw [mem_dedupFirst] at h
  rcases List.mem_append.mp h with h1 | h2
  · obtain ⟨e, he, rfl⟩ := List.mem_map.mp h1
    exact Or.inl ⟨e, he, rfl⟩
  · obtain ⟨y, hy, rfl⟩ := List.mem_map.mp h2
    obtain ⟨p, hp, rfl⟩ := mem_newMeetingLinks hy
    right
    exact ⟨p, hp, extractStem_mkLink p.2⟩

theorem dedupFirst_eq_nil {α : Type} [DecidableEq α] {l : List α}
    (h : dedupFirst l = []) : l = [] := by
  cases l with
  | nil => rfl
  | cons a as =>
    have : a ∈ dedupFirst (a :: as) := (mem_dedupFirst a _).mpr (List.mem_cons_self a as)
    rw [h] at this
    simp at this

theorem mergedTimes_map_pstrip (env : MergeEnv) (ex : List Str) (pairs : List (Str × Str)) :
    ((mergedTimes env ex pairs).map Prod.snd).map pstrip =
      (mergedTimes env ex pairs).map Prod.snd := by
  have h : ((mergedTimes env ex pairs).map Prod.snd).map pstrip =
      ((mergedTimes env ex pairs).map Prod.snd).map id := by
    apply List.map_congr_left
    intro x hx
    obtain ⟨s, _, rfl⟩ := mergedLinks_shape hx
    exact pstrip_mkLink s
  rw [h, List.map_id]

/-- A section that updateDailyNoteContent has just rebuilt is a fixed point
of a further merge with the same pairs: the zones re-parse to themselves and
the merged link set is unchanged. -/
theorem reapply_rebuilt (env : MergeEnv) (pairs : List (Str × Str))
    (hpairs : ∀ p ∈ pairs, '\n' ∉ p.2)
    (pre e0 tailRest : Str) (exlist B' A : List Str)
    (he0 : '\n' ∉ e0)
    (hB'ne : B' ≠ [])
    (hB'nl : ∀ x ∈ B', '\n' ∉ x) (hB'link : ∀ x ∈ B', isLinkLine x = false)
    (hB'hash : ∀ x ∈ B', x.head? ≠ some '#')
    (hA : A = [] ∨ ∃ h t, A = h :: t ∧ isBlankLine h = false ∧ isLinkLine h = false)
    (hAnl : ∀ x ∈ A, '\n' ∉ x) (hAhash : ∀ x ∈ A, x.head? ≠ some '#')
    (hAex : A ≠ [] → exlist ≠ [])
    (hEnl : ∀ x ∈ exlist, '\n' ∉ x)
    (htail : tailRest = [] ∨ ∃ r, tailRest = '\n' :: '#' :: r)
    (hreplay : ∀ x : Str,
      splitFirst meetingsHeader (pre ++ meetingsHeader ++ x) = some (pre, x)) :
    updateDailyNoteContent env pairs
      (pre ++ joinLines ((meetingsHeader ++ e0) ::
        (B' ++ (mergedTimes env exlist pairs).map Prod.snd ++ A)) ++ tailRest) =
      pre ++ joinLines ((meetingsHeader ++ e0) ::
        (B' ++ (mergedTimes env exlist pairs).map Prod.snd ++ A)) ++ tailRest := by
  have hB'empty : B'.isEmpty = false := by
    cases B' with
    | nil => exact absurd rfl hB'ne
    | cons x xs => rfl
  have hstemNl : ∀ s ∈ mergedStems exlist pairs, '\n' ∉ s := by
    intro s hs
    rcases mem_mergedStems hs with ⟨e, he, rfl⟩ | ⟨p, hp, rfl⟩
    · intro hc
      exact hEnl e he (mem_pstrip (mem_extractStem hc))
    · exact hpairs p hp
  have hLnl : ∀ x ∈ (mergedTimes env exlist pairs).map Prod.snd, '\n' ∉ x := by
    intro x hx
    obtain ⟨s, hs, rfl⟩ := mergedLinks_shape hx
    exact noNl_mkLink (hstemNl s hs)
  have hLlink : ∀ x ∈ (mergedTimes env exlist pairs).map Prod.snd, isLinkLine x = true := by
    intro x hx
    obtain ⟨s, _, rfl⟩ := mergedLinks_shape hx
    exact isLinkLine_mkLink s
  have hLhash : ∀ x ∈ (mergedTimes env exlist pairs).map Prod.snd, x.head? ≠ some '#' := by
    intro x hx
    obtain ⟨s, _, rfl⟩ := mergedLinks_shape hx
    rw [head_mkLink]
    simp
  by_cases hL : (mergedTimes env exlist pairs).map Prod.snd = []
  · have hmt : mergedTimes env exlist pairs = [] := by
      cases hmt2 : mergedTimes env exlist pairs with
      | nil => rfl
      | cons y ys => rw [hmt2] at hL; simp at hL
    have hstems : mergedStems exlist pairs = [] := by
      have hperm := List.perm_insertionSort pairLe
        ((mergedStems exlist pairs).map (fun st => (env.startTimeOf st, mkLink st)))
      rw [mergedTimes_eq] at hmt
      rw [hmt] at hperm
      have h0 := hperm.symm.eq_nil
      cases hst : mergedStems exlist pairs with
      | nil => rfl
      | cons y ys => rw [hst] at h0; simp at h0
    have h9 : exlist.map extractStem ++ (newMeetingLinks pairs).map extractStem = [] :=
      dedupFirst_eq_nil (show dedupFirst
        (exlist.map extractStem ++ (newMeetingLinks pairs).map extractStem) = [] from hstems)
    obtain ⟨h9a, h9b⟩ := List.append_eq_nil.mp h9
    have hexnil : exlist = [] := by
      cases hx : exlist with
      | nil => rfl
      | cons y ys => rw [hx] at h9a; simp at h9a
    have hnewnil : newMeetingLinks pairs = [] := by
      cases hx : newMeetingLinks pairs with
      | nil => rfl
      | cons y ys => rw [hx] at h9b; simp at h9b
    have hA2 : A = [] := by
      by_contra hc
      exact (hAex hc) hexnil
    subst hA2
    rw [hL]
    simp only [List.append_nil]
    have hmt0 : mergedTimes env ([] : List Str) pairs = [] := by
      rw [mergedTimes_eq]
      have hst0 : mergedStems ([] : List Str) pairs = [] := by
        unfold mergedStems
        rw [hnewnil]
        rfl
      rw [hst0]
      rfl
    have hshape : pre ++ joinLines ((meetingsHeader ++ e0) :: B') ++ tailRest =
        pre ++ meetingsHeader ++ (e0 ++ ('\n' :: joinLines B') ++ tailRest) := by
      rw [joinLines_cons _ hB'ne]
      simp
    rw [hshape,
      updatePresent_structured_nolinks env pairs pre e0 tailRest B' (hreplay _) he0
        hB'nl hB'link hB'hash hB'ne htail,
      hmt0]
    simp only [List.map_nil, List.append_nil]
    exact hshape
  · have hZSne : B' ++ (mergedTimes env exlist pairs).map Prod.snd ++ A ≠ [] := by
      intro hc
      rcases List.append_eq_nil.mp hc with ⟨h1, _⟩
      rcases List.append_eq_nil.mp h1 with ⟨h2, _⟩
      exact hB'ne h2
    have hshape : pre ++ joinLines ((meetingsHeader ++ e0) ::
        (B' ++ (mergedTimes env exlist pairs).map Prod.snd ++ A)) ++ tailRest =
        pre ++ meetingsHeader ++ (e0 ++ ('\n' ::
          joinLines (B' ++ (mergedTimes env exlist pairs).map Prod.snd ++ A)) ++ tailRest) := by
      rw [joinLines_cons _ hZSne]
      simp
    rw [hshape,
      updatePresent_structured env pairs pre e0 tailRest
        B' ((mergedTimes env exlist pairs).map Prod.snd) A (hreplay _) he0
        hB'nl hB'link hB'hash hLnl hLlink hLhash hL hAnl hAhash hA htail,
      mergedTimes_map_pstrip, mergedTimes_idem]
    simp only [hB'empty, Bool.false_eq_true, if_false]
    exact hshape

theorem reapply_after_parse (env : MergeEnv) (pairs : List (Str × Str))
    (hpairs : ∀ p ∈ pairs, '\n' ∉ p.2) (pre r1 tailTxt : Str)
    (hr1 : noNlHashB r1 = true)
    (htail : tailTxt = [] ∨ ∃ r, tailTxt = '\n' :: '#' :: r)
    (hreplay : ∀ x : Str,
      splitFirst meetingsHeader (pre ++ meetingsHeader ++ x) = some (pre, x)) :
    updateDailyNoteContent env pairs
      (pre ++ joinLines (rebuildSection ((splitLines (meetingsHeader ++ r1)).headD [])
        (scanSection ((splitLines (meetingsHeader ++ r1)).drop 1))
        ((mergedTimes env
          (scanSection ((splitLines (meetingsHeader ++ r1)).drop 1)).existing pairs).map
            Prod.snd)) ++ tailTxt) =
    pre ++ joinLines (rebuildSection ((splitLines (meetingsHeader ++ r1)).headD [])
      (scanSection ((splitLines (meetingsHeader ++ r1)).drop 1))
      ((mergedTimes env
        (scanSection ((splitLines (meetingsHeader ++ r1)).drop 1)).existing pairs).map
          Prod.snd)) ++ tailTxt := by
  cases hsl : splitLines r1 with
  | nil => exact absurd hsl (splitLines_ne_nil r1)
  | cons e0 es =>
    have hlines : splitLines (meetingsHeader ++ r1) = (meetingsHeader ++ e0) :: es := by
      rw [splitLines_append_noNl meetingsHeader_noNl, hsl]
      rfl
    rw [hlines]
    simp only [List.headD_cons, List.drop_one, List.tail_cons]
    have he0 : '\n' ∉ e0 :=
      mem_splitLines_noNl (l := e0) (hsl ▸ List.mem_cons_self e0 es)
    have hPes : ∀ l ∈ es, '\n' ∉ l ∧ l.head? ≠ some '#' := by
      intro l hl
      constructor
      · exact mem_splitLines_noNl (l := l) (hsl ▸ List.mem_cons_of_mem e0 hl)
      · apply splitLines_tail_no_hash hr1
        rw [hsl, List.tail_cons]
        exact hl
    have hzones := scan_zone_mem (P := fun l => '\n' ∉ l ∧ l.head? ≠ some '#') es hPes
      initScan (by intro x hx; simp [initScan] at hx)
      (by intro x hx; simp [initScan] at hx)
      (by intro x hx; simp [initScan] at hx)
    obtain ⟨hBzone, hAzone, hEzone⟩ := hzones
    obtain ⟨i1, i2, i3, i4, i5, i6⟩ := scanSection_inv es
    have hrebuild : rebuildSection (meetingsHeader ++ e0) (scanSection es)
        ((mergedTimes env (scanSection es).existing pairs).map Prod.snd) =
        (meetingsHeader ++ e0) ::
          ((if (scanSection es).beforeList.isEmpty then [([] : Str)]
            else (scanSection es).beforeList) ++
            (mergedTimes env (scanSection es).existing pairs).map Prod.snd ++
            (scanSection es).afterList) := rfl
    rw [hrebuild]
    apply reapply_rebuilt env pairs hpairs pre e0 tailTxt
      (scanSection es).existing _ (scanSection es).afterList he0
    · by_cases hb : (scanSection es).beforeList.isEmpty
      · rw [if_pos hb]; simp
      · rw [if_neg hb]
        intro hc
        rw [hc] at hb
        exact hb rfl
    · intro x hx
      by_cases hb : (scanSection es).beforeList.isEmpty
      · rw [if_pos hb] at hx
        have : x = [] := by simpa using hx
        subst this
        simp
      · rw [if_neg hb] at hx
        exact (hBzone x hx).1
    · intro x hx
      by_cases hb : (scanSection es).beforeList.isEmpty
      · rw [if_pos hb] at hx
        have : x = [] := by simpa using hx
        subst this
        decide
      · rw [if_neg hb] at hx
        exact i5 x hx
    · intro x hx
      by_cases hb : (scanSection es).beforeList.isEmpty
      · rw [if_pos hb] at hx
        have : x = [] := by simpa using hx
        subst this
        simp
      · rw [if_neg hb] at hx
        exact (hBzone x hx).2
    · exact i6
    · intro x hx
      exact (hAzone x hx).1
    · intro x hx
      exact (hAzone x hx).2
    · intro hA hEx
      have h1 := i3 hA
      have h2 := i1 h1
      exact (i2 h2) hEx
    · intro x hx
      obtain ⟨l0, hl0, rfl⟩ := hEzone x hx
      intro hc
      exact hl0.1 (mem_pstrip hc)
    · exact htail
    · exact hreplay

/-- Present-path stability: one application of the merge to a document that
contains the meetings header yields a fixed point of further merges with the
same pairs (and an unchanged start-time environment). -/
theorem updateDailyNote_fixed_of_present (env : MergeEnv) (pairs : List (Str × Str))
    (hpairs : ∀ p ∈ pairs, '\n' ∉ p.2) {d pre rest : Str}
    (hsplit : splitFirst meetingsHeader d = some (pre, rest)) :
    updateDailyNoteContent env pairs (updateDailyNoteContent env pairs d) =
      updateDailyNoteContent env pairs d := by
  have hreplay := splitFirst_replay hsplit
  cases hcut : splitFirst nlHash rest with
  | none =>
    rw [updateDNC_present_none hsplit hcut]
    have hr1 : noNlHashB rest = true := noNlHash_of_splitFirst_none hcut
    have h := reapply_after_parse env pairs hpairs pre rest [] hr1 (Or.inl rfl) hreplay
    simpa using h
  | some q =>
    obtain ⟨r1, r2⟩ := q
    rw [updateDNC_present_some hsplit hcut]
    have hr1 : noNlHashB r1 = true := noNlHash_of_splitFirst_some hcut
    exact reapply_after_parse env pairs hpairs pre r1 (nlHash ++ r2) hr1
      (Or.inr ⟨r2, rfl⟩) hreplay

theorem noNl_collapseWsAux (b : Bool) (s : Str) : '\n' ∉ collapseWsAux b s := by
  induction s generalizing b with
  | nil => simp [collapseWsAux]
  | cons c cs ih =>
    by_cases hc : isWsChar c = true
    · by_cases hb : b = true
      · subst hb
        simpa [collapseWsAux, hc] using ih true
      · have hb2 : b = false := by simpa using hb
        subst hb2
        simp only [collapseWsAux, hc, if_true]
        intro hmem
        rcases List.mem_cons.mp hmem with h1 | h1
        · exact absurd h1.symm (by decide)
        · exact ih true h1
    · have hc2 : isWsChar c = false := by simpa using hc
      simp only [collapseWsAux, hc2]
      intro hmem
      rcases List.mem_cons.mp hmem with h1 | h1
      · subst h1
        exact absurd hc2 (by decide)
      · exact ih false h1

theorem noNl_sanitizeTitle (t : Str) : '\n' ∉ sanitizeTitle t := by
  intro hc
  exact noNl_collapseWsAux false _ (mem_pstrip hc)

/-- C1: the daily-note merge is NOT idempotent as claimed: when the first
application appends a fresh meetings section (header absent), the second
application drops the final trailing newline, so the documents differ
byte-for-byte.  This closed instance evaluates both sides. -/
theorem c1_counterexample :
    updateDailyNoteContent ⟨fun _ => []⟩ [("09:00".data, "A".data)]
        (updateDailyNoteContent ⟨fun _ => []⟩ [("09:00".data, "A".data)] "hello".data) ≠
      updateDailyNoteContent ⟨fun _ => []⟩ [("09:00".data, "A".data)] "hello".data := by
  decide

/-- C1 (amended): the merge is idempotent from the point where the meetings
header is present: (1) on every document already containing the header, a
second application with the same pairs reproduces the first
byte-for-byte; (2) consequently three applications always equal two, so the
pipeline is stable from the second run onward; (3) the newline-free side
condition on stems is discharged by the pipeline itself, since sanitized
titles never contain a newline. -/
theorem c1_merge_idempotent_amended :
    (∀ (env : MergeEnv) (pairs : List (Str × Str)) (d : Str),
      (splitFirst meetingsHeader d).isSome = true →
      (∀ p ∈ pairs, '\n' ∉ p.2) →
      updateDailyNoteContent env pairs (updateDailyNoteContent env pairs d) =
        updateDailyNoteContent env pairs d) ∧
    (∀ (env : MergeEnv) (pairs : List (Str × Str)) (d : Str),
      (∀ p ∈ pairs, '\n' ∉ p.2) →
      updateDailyNoteContent env pairs (updateDailyNoteContent env pairs
          (updateDailyNoteContent env pairs d)) =
        updateDailyNoteContent env pairs (updateDailyNoteContent env pairs d)) ∧
    (∀ t : Str, '\n' ∉ sanitizeTitle t) := by
  have part1 : ∀ (env : MergeEnv) (pairs : List (Str × Str)) (d : Str),
      (splitFirst meetingsHeader d).isSome = true →
      (∀ p ∈ pairs, '\n' ∉ p.2) →
      updateDailyNoteContent env pairs (updateDailyNoteContent env pairs d) =
        updateDailyNoteContent env pairs d := by
    intro env pairs d hsome hpairs
    cases hsplit : splitFirst meetingsHeader d with
    | none => rw [hsplit] at hsome; exact absurd hsome (by simp)
    | some q =>
      obtain ⟨pre, rest⟩ := q
      exact updateDailyNote_fixed_of_present env pairs hpairs hsplit
  refine ⟨part1, ?_, noNl_sanitizeTitle⟩
  intro env pairs d hpairs
  cases hsplit : splitFirst meetingsHeader d with
  | some q =>
    obtain ⟨pre, rest⟩ := q
    have hfix := updateDailyNote_fixed_of_present env pairs hpairs hsplit
    rw [hfix]
    exact hfix
  | none =>
    cases hsplit2 : splitFirst meetingsHeader (updateDailyNoteContent env pairs d) with
    | none =>
      exfalso
      have hshape : updateDailyNoteContent env pairs d =
          (rstrip d ++ "\n\n".data) ++ meetingsHeader ++
            ("\n\n".data ++ joinLines (newMeetingLinks pairs) ++ ['\n']) := by
        rw [updateDNC_absent hsplit]
        simp
      exact splitFirst_none_of_eq_none hsplit2 _ _ hshape
    | some q =>
      obtain ⟨pre, rest⟩ := q
      exact updateDailyNote_fixed_of_present env pairs hpairs hsplit2

/-- C1 witness: the amended idempotence applied to a concrete document that
already contains the meetings header. -/
theorem c1_witness :
    ((splitFirst meetingsHeader "# 📅 Meetings\n- [[A]]".data).isSome = true) ∧
    updateDailyNoteContent ⟨fun _ => []⟩ [("10:00".data, "B".data)]
        (updateDailyNoteContent ⟨fun _ => []⟩ [("10:00".data, "B".data)]
          "# 📅 Meetings\n- [[A]]".data) =
      updateDailyNoteContent ⟨fun _ => []⟩ [("10:00".data, "B".data)]
        "# 📅 Meetings\n- [[A]]".data :=
  ⟨by decide, c1_merge_idempotent_amended.1 ⟨fun _ => []⟩ [("10:00".data, "B".data)]
    "# 📅 Meetings\n- [[A]]".data (by decide) (by decide)⟩

/-- C2: a meeting link can appear twice in the meetings section after a
merge: a duplicate link line sitting in the after-list zone (after non-list
user text) is preserved verbatim next to the regenerated list.  Here the
stem A occurs in two link lines of the merged section. -/
theorem c2_counterexample :
    ((splitLines (updateDailyNoteContent ⟨fun _ => []⟩ [(([] : Str), "A".data)]
      "# 📅 Meetings\n- [[A]]\nx\n- [[A]]".data)).filter
        (fun l => isLinkLine l && (extractStem l == "A".data))).length = 2 := by
  decide

/-- C2 (amended): within the regenerated list zone the invariant does hold:
the merged link list the merge writes out carries pairwise-distinct stems,
for every start-time environment, existing link set and incoming pair list;
and a merge whose incoming links already sit in the section leaves a single
occurrence, as the concrete overlap shows.  Only link-shaped lines preserved
verbatim in the after-list zone can duplicate a stem. -/
theorem c2_list_zone_nodup :
    (∀ (env : MergeEnv) (ex : List Str) (pairs : List (Str × Str)),
      (((mergedTimes env ex pairs).map Prod.snd).map extractStem).Nodup) ∧
    updateDailyNoteContent ⟨fun _ => []⟩ [(([] : Str), "A".data)]
        "# 📅 Meetings\n\n- [[A]]".data = "# 📅 Meetings\n\n- [[A]]".data :=
  ⟨mergedLinks_stems_nodup, by decide⟩

/-- C3: in the no-header append path the new section is sorted by start
time only, with ties kept in input order rather than by link identity: with
two incoming pairs both at 09:00, the link Z precedes the link A, so the
emitted link sequence is not sorted by the (recovered start time, link)
key. -/
theorem c3_counterexample :
    ¬ List.Sorted pairLe
      (((splitLines (updateDailyNoteContent ⟨fun _ => "09:00".data⟩
          [("09:00".data, "Z".data), ("09:00".data, "A".data)] "x".data)).filter
        isLinkLine).map
          (fun l => ((⟨fun _ => "09:00".data⟩ : MergeEnv).startTimeOf (extractStem l), l))) := by
  decide

/-- C3 (amended): in the present-header merge path the rebuilt list is
sorted ascending by the Python pair comparison on (recovered start time,
link line): empty times sort first and the link string is the secondary
key.  The concrete merge of existing links timed 10:00, unknown and 09:00
with a new 08:30 link yields the unknown-first, then 08:30, 09:00, 10:00
order.  In the append path the links are sorted by start time only, ties
keeping input order. -/
theorem c3_merge_sorted :
    (∀ (env : MergeEnv) (ex : List Str) (pairs : List (Str × Str)),
      List.Sorted pairLe (mergedTimes env ex pairs)) ∧
    updateDailyNoteContent
        ⟨fun st => if st = "M10".data then "10:00".data
          else if st = "M09".data then "09:00".data
          else if st = "M0830".data then "08:30".data else []⟩
        [("08:30".data, "M0830".data)]
        "# 📅 Meetings\n\n- [[M10]]\n- [[Mempty]]\n- [[M09]]\n".data =
      "# 📅 Meetings\n\n- [[Mempty]]\n- [[M0830]]\n- [[M09]]\n- [[M10]]".data :=
  ⟨mergedTimes_sorted, by decide⟩

/-- C4: a blank line separating the meetings list from following user text
does not survive the merge: the scanner swallows blank lines while the list
is open, so the text after the list is not preserved character for
character.  Before the merge the document contains a blank line before the
words user text; afterwards it does not. -/
theorem c4_counterexample :
    updateDailyNoteContent ⟨fun _ => "09:00".data⟩ [("09:00".data, "A".data)]
        "# 📅 Meetings\nintro\n- [[A]]\n\nuser text".data =
      "# 📅 Meetings\nintro\n- [[A]]\nuser text".data ∧
    containsSub "\n\nuser text".data "# 📅 Meetings\nintro\n- [[A]]\n\nuser text".data = true ∧
    containsSub "\n\nuser text".data
      (updateDailyNoteContent ⟨fun _ => "09:00".data⟩ [("09:00".data, "A".data)]
        "# 📅 Meetings\nintro\n- [[A]]\n\nuser text".data) = false := by
  refine ⟨by decide, by decide, ?_⟩
  decide

/-- C4 (amended): the merge rewrites only the list zone, with the zones as
the code delimits them: for a document made of a prefix free of the header,
the header line, non-link before-list lines, a non-empty run of link lines,
an after-list zone opening with a non-blank non-link line, and a
newline-hash tail, the output keeps the prefix, the header line, the
before-list zone, the after-list zone and the tail verbatim and replaces
exactly the link run; blank lines inside or directly after the link run are
absorbed (dropped), which is the sole deviation from the claim. -/
theorem c4_frame_amended (env : MergeEnv) (pairs : List (Str × Str))
    (pre extra tailRest : Str) (B L A : List Str)
    (hclean : splitFirst meetingsHeader (pre ++ meetingsHeader) = some (pre, []))
    (hextra : '\n' ∉ extra)
    (hBnl : ∀ l ∈ B, '\n' ∉ l) (hBlink : ∀ l ∈ B, isLinkLine l = false)
    (hBhash : ∀ l ∈ B, l.head? ≠ some '#')
    (hLnl : ∀ l ∈ L, '\n' ∉ l) (hLlink : ∀ l ∈ L, isLinkLine l = true)
    (hLhash : ∀ l ∈ L, l.head? ≠ some '#')
    (hLne : L ≠ [])
    (hAnl : ∀ l ∈ A, '\n' ∉ l) (hAhash : ∀ l ∈ A, l.head? ≠ some '#')
    (hA : A = [] ∨ ∃ h t, A = h :: t ∧ isBlankLine h = false ∧ isLinkLine h = false)
    (htail : tailRest = [] ∨ ∃ r, tailRest = '\n' :: '#' :: r) :
    updateDailyNoteContent env pairs
      (pre ++ meetingsHeader ++ (extra ++ ('\n' :: joinLines (B ++ L ++ A)) ++ tailRest)) =
    pre ++ joinLines ((meetingsHeader ++ extra) ::
      ((if B.isEmpty then [([] : Str)] else B) ++
        (mergedTimes env (L.map pstrip) pairs).map Prod.snd ++ A)) ++ tailRest := by
  have hpre := splitFirst_replay hclean
    (extra ++ ('\n' :: joinLines (B ++ L ++ A)) ++ tailRest)
  have hpre2 : splitFirst meetingsHeader
      (pre ++ meetingsHeader ++ (extra ++ ('\n' :: joinLines (B ++ L ++ A)) ++ tailRest)) =
      some (pre, extra ++ ('\n' :: joinLines (B ++ L ++ A)) ++ tailRest) := by
    have hsh : pre ++ meetingsHeader ++ ([] : Str) ++
        (extra ++ ('\n' :: joinLines (B ++ L ++ A)) ++ tailRest) =
        pre ++ meetingsHeader ++
          (extra ++ ('\n' :: joinLines (B ++ L ++ A)) ++ tailRest) := by simp
    rw [← hsh]
    have hsh2 : pre ++ meetingsHeader ++ ([] : Str) ++
        (extra ++ ('\n' :: joinLines (B ++ L ++ A)) ++ tailRest) =
        pre ++ ([] : Str) ++ meetingsHeader ++
          (extra ++ ('\n' :: joinLines (B ++ L ++ A)) ++ tailRest) := by simp
    rw [hsh2]
    simpa using hpre
  exact updatePresent_structured env pairs pre extra tailRest B L A hpre2 hextra
    hBnl hBlink hBhash hLnl hLlink hLhash hLne hAnl hAhash hA htail

/-- C4 witness: the frame characterization at one concrete document with a
prefix, before-list text, one link, trailing user text and a following
section. -/
theorem c4_witness :
    (splitFirst meetingsHeader ("before\n".data ++ meetingsHeader) =
      some ("before\n".data, [])) ∧
    updateDailyNoteContent ⟨fun _ => []⟩ [("09:00".data, "B".data)]
      ("before\n".data ++ meetingsHeader ++
        (([] : Str) ++ ('\n' :: joinLines ["intro".data, "- [[A]]".data, "tail text".data]) ++
          "\n# Next\nrest".data)) =
    "before\n".data ++ joinLines ((meetingsHeader ++ ([] : Str)) ::
      ((if ["intro".data].isEmpty then [([] : Str)] else ["intro".data]) ++
        (mergedTimes ⟨fun _ => []⟩ (["- [[A]]".data].map pstrip)
          [("09:00".data, "B".data)]).map Prod.snd ++ ["tail text".data])) ++
      "\n# Next\nrest".data :=
  ⟨by decide,
    c4_frame_amended ⟨fun _ => []⟩ [("09:00".data, "B".data)] "before\n".data [] "\n# Next\nrest".data
      ["intro".data] ["- [[A]]".data] ["tail text".data]
      (by decide) (by decide) (by decide) (by decide) (by decide) (by decide) (by decide)
      (by decide) (by decide) (by decide) (by decide)
      (Or.inr ⟨"tail text".data, [], rfl, by decide, by decide⟩)
      (Or.inr ⟨" Next\nrest".data, by decide⟩)⟩

theorem guard_opt (f : Str → Option Str) (e : Str) :
    (if !e.isEmpty then f e else none) = (if e = [] then none else f e) := by
  cases e <;> simp

/-- C5: the flat-variant resolver emits even an unmatched display name as a
quoted wikilink, not as plain quoted text: with no grep hit, no People file
and no directory hit, the result for display name Alice Smith is the
cross-reference form, which differs from the plain quoted form. -/
theorem c5_counterexample :
    matchAttendeeToPerson (fun _ => none) (fun _ => false) (fun _ => none)
        "ghost@example.com".data "Alice Smith".data = quoteWikilink "Alice Smith".data ∧
    quoteWikilink "Alice Smith".data ≠ plainQuoted "Alice Smith".data := by
  decide

/-- C5 (amended): the class-based resolver follows the cascade: a known
email is linked; an unknown email with a display name and no match
anywhere yields the literal display name unlinked; an email with no display
name yields its local-part before the at sign; the placeholder Unknown
appears only when everything is absent.  The flat resolver is total as
well, but every one of its outcomes is a quoted wikilink. -/
theorem c5_attendee_cascade_amended :
    (∀ (pm gog : Str → Option Str) (e d n : Str),
      pm e = some n → matchAttendee pm gog e d = (n, true)) ∧
    (∀ (pm gog : Str → Option Str) (e d : Str),
      pm e = none → pm (lowerAscii d) = none → gog e = none → d ≠ [] →
      matchAttendee pm gog e d = (d, false)) ∧
    (∀ (pm gog : Str → Option Str) (e : Str),
      pm e = none → gog e = none → e ≠ [] →
      matchAttendee pm gog e [] = (e.takeWhile (fun c => !(c = '@')), false)) ∧
    (∀ (pm gog : Str → Option Str),
      pm [] = none → matchAttendee pm gog [] [] = ("Unknown".data, false)) ∧
    (∀ (grep gog : Str → Option Str) (fe : Str → Bool) (e d : Str),
      ∃ n, matchAttendeeToPerson grep fe gog e d = quoteWikilink n) := by
  refine ⟨?_, ?_, ?_, ?_, ?_⟩
  · intro pm gog e d n h
    simp [matchAttendee, h]
  · intro pm gog e d h1 h2 h3 hd
    have hgog : (if e = [] then none else gog e) = none := by
      by_cases he : e = []
      · simp [he]
      · simp [he, h3]
    simp [matchAttendee, h1, h2, hd, hgog]
  · intro pm gog e h1 h2 he
    simp [matchAttendee, h1, he, h2]
  · intro pm gog h1
    simp [matchAttendee, h1]
  · intro grep gog fe e d
    have hge := guard_opt grep e
    have hgg := guard_opt gog e
    cases h1 : (if e = [] then none else grep e) with
    | some stem =>
      exact ⟨stem, by simp only [matchAttendeeToPerson, hge, h1]⟩
    | none =>
      by_cases hdn : d = []
      · cases h3 : (if e = [] then none else gog e) with
        | some fn =>
          exact ⟨fn, by simp [matchAttendeeToPerson, hge, hgg, h1, h3, hdn]⟩
        | none =>
          exact ⟨d, by simp [matchAttendeeToPerson, hge, hgg, h1, h3, hdn]⟩
      · by_cases hf : fe d = true
        · exact ⟨d, by simp [matchAttendeeToPerson, hge, h1, hdn, hf]⟩
        · cases h3 : (if e = [] then none else gog e) with
          | some fn =>
            exact ⟨fn, by simp [matchAttendeeToPerson, hge, hgg, h1, h3, hdn, hf]⟩
          | none =>
            exact ⟨d, by simp [matchAttendeeToPerson, hge, hgg, h1, h3, hdn, hf]⟩

/-- C5 witness: the cascade outcomes applied at concrete oracles: a known
email resolves linked, and an unknown attendee with a display name resolves
to the unlinked literal name. -/
theorem c5_witness :
    ((fun q : Str => if q = "amy@x.com".data then some "Amy Pond".data else none)
        "amy@x.com".data = some "Amy Pond".data) ∧
    matchAttendee
        (fun q => if q = "amy@x.com".data then some "Amy Pond".data else none)
        (fun _ => none) "amy@x.com".data "Amy".data = ("Amy Pond".data, true) ∧
    matchAttendee (fun _ => none) (fun _ => none) "bob@x.com".data "Bob Smith".data =
      ("Bob Smith".data, false) :=
  ⟨by decide,
    c5_attendee_cascade_amended.1
      (fun q => if q = "amy@x.com".data then some "Amy Pond".data else none)
      (fun _ => none) "amy@x.com".data "Amy".data "Amy Pond".data (by decide),
    c5_attendee_cascade_amended.2.1 (fun _ => none) (fun _ => none)
      "bob@x.com".data "Bob Smith".data (by decide) (by decide) (by decide) (by decide)⟩

/-- C6: the event filter is a pure predicate skipping exactly on the five
claimed conditions, in both variants (the flat one identifies the user by
email, the class one by the self flag); a zero-attendee event is skipped, a
sole non-self decliner is kept, and a self decline always skips. -/
theorem c6_filter_spec :
    (∀ (ev : Event) (u : Str),
      shouldSkipEvent ev u = true ↔
        (ev.eventType = some "workingLocation".data ∨
         (∃ a ∈ ev.attendees, a.email = some u ∧ a.responseStatus = some "declined".data) ∨
         ev.attendees = [] ∨
         (∀ a ∈ ev.attendees, a.email = some u) ∨
         (ev.guestsCanSeeOtherGuests = some false ∧ ev.guestsCanInviteOthers = some false))) ∧
    (∀ ev : Event,
      shouldSkipEventClass ev = true ↔
        (ev.eventType = some "workingLocation".data ∨
         (∃ a ∈ ev.attendees, a.selfFlag = true ∧ a.responseStatus = some "declined".data) ∨
         ev.attendees = [] ∨
         (∀ a ∈ ev.attendees, a.selfFlag = true) ∨
         (ev.guestsCanSeeOtherGuests = some false ∧ ev.guestsCanInviteOthers = some false))) ∧
    shouldSkipEvent ⟨none, some "Focus".data, [], none, none, none, none⟩
      userEmailDefault = true ∧
    shouldSkipEvent ⟨none, some "Sync".data,
      [⟨some userEmailDefault, true, some "accepted".data⟩,
       ⟨some "bob@x.com".data, false, some "declined".data⟩], none, none, none, none⟩
      userEmailDefault = false ∧
    shouldSkipEvent ⟨none, some "Sync".data,
      [⟨some userEmailDefault, true, some "declined".data⟩,
       ⟨some "bob@x.com".data, false, some "accepted".data⟩], none, none, none, none⟩
      userEmailDefault = true := by
  refine ⟨?_, ?_, by decide, by decide, by decide⟩
  · intro ev u
    unfold shouldSkipEvent
    split_ifs with h1 h2 h3 h4 h5
    · simp only [true_iff]
      exact Or.inl h1
    · simp only [true_iff]
      rw [List.any_eq_true] at h2
      obtain ⟨a, ha, hcond⟩ := h2
      simp only [Bool.and_eq_true, decide_eq_true_eq] at hcond
      exact Or.inr (Or.inl ⟨a, ha, hcond⟩)
    · simp only [true_iff]
      exact Or.inr (Or.inr (Or.inl (List.isEmpty_iff.mp h3)))
    · simp only [true_iff]
      rw [List.isEmpty_iff, List.filter_eq_nil_iff] at h4
      refine Or.inr (Or.inr (Or.inr (Or.inl ?_)))
      intro a ha
      have := h4 a ha
      simpa using this
    · simp only [true_iff]
      simp only [Bool.and_eq_true, decide_eq_true_eq] at h5
      exact Or.inr (Or.inr (Or.inr (Or.inr h5)))
    · simp only [false_iff]
      rintro (h | ⟨a, ha, hc1, hc2⟩ | h | h | ⟨hg1, hg2⟩)
      · exact h1 h
      · apply h2
        rw [List.any_eq_true]
        exact ⟨a, ha, by simp [hc1, hc2]⟩
      · exact h3 (by rw [h]; rfl)
      · apply h4
        rw [List.isEmpty_iff, List.filter_eq_nil_iff]
        intro a ha
        simp [h a ha]
      · exact h5 (by simp [hg1, hg2])
  · intro ev
    unfold shouldSkipEventClass
    split_ifs with h1 h2 h3 h4 h5
    · simp only [true_iff]
      exact Or.inl h1
    · simp only [true_iff]
      rw [List.any_eq_true] at h2
      obtain ⟨a, ha, hcond⟩ := h2
      simp only [Bool.and_eq_true, decide_eq_true_eq] at hcond
      exact Or.inr (Or.inl ⟨a, ha, hcond⟩)
    · simp only [true_iff]
      exact Or.inr (Or.inr (Or.inl (List.isEmpty_iff.mp h3)))
    · simp only [true_iff]
      rw [List.isEmpty_iff, List.filter_eq_nil_iff] at h4
      refine Or.inr (Or.inr (Or.inr (Or.inl ?_)))
      intro a ha
      have := h4 a ha
      simpa using this
    · simp only [true_iff]
      simp only [Bool.and_eq_true, decide_eq_true_eq] at h5
      exact Or.inr (Or.inr (Or.inr (Or.inr h5)))
    · simp only [false_iff]
      rintro (h | ⟨a, ha, hc1, hc2⟩ | h | h | ⟨hg1, hg2⟩)
      · exact h1 h
      · apply h2
        rw [List.any_eq_true]
        exact ⟨a, ha, by simp [hc1, hc2]⟩
      · exact h3 (by rw [h]; rfl)
      · apply h4
        rw [List.isEmpty_iff, List.filter_eq_nil_iff]
        intro a ha
        simp [h a ha]
      · exact h5 (by simp [hg1, hg2])

/-- C7: the class-based title-only classifier has no slides rule: the title
Q3 Slides Deck classifies as agenda, not slides. -/
theorem c7_counterexample :
    (classifyAttachment "Q3 Slides Deck".data
      "https://docs.google.com/presentation/d/x".data).1 = "agenda".data ∧
    ("agenda".data : Str) ≠ "slides".data := by
  decide

/-- C7 (amended): a Meeting Minutes title classifies as minutes in both
title-only classifiers (for the flat fallback, provided the file URL does
not contain gemini); a Q3 Slides Deck name classifies as slides in the
Drive-metadata branch of the flat variant while the class-based classifier
sends it to agenda; and an attachment without keywords whose link targets
docs.google.com defaults to agenda in the flat fallback. -/
theorem c7_classification_amended :
    (∀ url : Str, containsSub "gemini".data url = false →
      (classifyAttachmentFlat none "Meeting Minutes".data url).1 = AttachCat.minutes) ∧
    (∀ url : Str, (classifyAttachment "Meeting Minutes".data url).1 = "minutes".data) ∧
    (∀ (mime : Str) (link : Option Str) (title url : Str),
      (classifyAttachmentFlat (some ⟨"Q3 Slides Deck".data, mime, link⟩) title url).1 =
        AttachCat.slides) ∧
    (∀ url : Str, (classifyAttachment "Q3 Slides Deck".data url).1 = "agenda".data) ∧
    (∀ (title url : Str),
      containsSub "transcript".data (lowerAscii title) = false →
      containsSub "gemini".data url = false →
      containsSub "recording".data (lowerAscii title) = false →
      containsSub "minutes".data (lowerAscii title) = false →
      containsSub "summary".data (lowerAscii title) = false →
      containsSub "recap".data (lowerAscii title) = false →
      containsSub "notes".data (lowerAscii title) = false →
      containsSub "agenda".data (lowerAscii title) = false →
      containsSub "1:1".data (lowerAscii title) = false →
      containsSub "1-1".data (lowerAscii title) = false →
      containsSub "docs.google.com".data url = true →
      (classifyAttachmentFlat none title url).1 = AttachCat.agenda) := by
  refine ⟨?_, ?_, ?_, ?_, ?_⟩
  · intro url h
    have e1 : (containsSub "transcript".data (lowerAscii "Meeting Minutes".data) ||
        containsSub "gemini".data url) = false := by
      rw [h]
      decide
    have e2 : containsSub "recording".data (lowerAscii "Meeting Minutes".data) = false := by
      decide
    have e3 : (containsSub "minutes".data (lowerAscii "Meeting Minutes".data) ||
        containsSub "summary".data (lowerAscii "Meeting Minutes".data) ||
        containsSub "recap".data (lowerAscii "Meeting Minutes".data)) = true := by
      decide
    simp only [classifyAttachmentFlat, e1, e2, e3]
    simp
  · intro url
    rfl
  · intro mime link title url
    have e1 : containsSub "gemini".data (lowerAscii "Q3 Slides Deck".data) = false := by decide
    have e2 : containsSub "recording".data (lowerAscii "Q3 Slides Deck".data) = false := by
      decide
    have e3 : (containsSub "minutes".data (lowerAscii "Q3 Slides Deck".data) ||
        containsSub "summary".data (lowerAscii "Q3 Slides Deck".data) ||
        containsSub "recap".data (lowerAscii "Q3 Slides Deck".data)) = false := by decide
    have e4 : (decide (mime = "application/vnd.google-apps.presentation".data) ||
        containsSub "slides".data (lowerAscii "Q3 Slides Deck".data) ||
        containsSub "presentation".data (lowerAscii "Q3 Slides Deck".data) ||
        containsSub "deck".data (lowerAscii "Q3 Slides Deck".data)) = true := by
      rw [show containsSub "slides".data (lowerAscii "Q3 Slides Deck".data) = true from by
        decide]
      simp
    simp only [classifyAttachmentFlat, e1, e2, e3, e4]
    simp
  · intro url
    rfl
  · intro title url h1 h2 h3 h4 h5 h6 h7 h8 h9 h10 h11
    simp only [classifyAttachmentFlat, h1, h2, h3, h4, h5, h6, h7, h8, h9, h10, h11]
    simp

/-- C7 witness: the amended classification facts at a concrete URL and at a
keyword-free title with a Google Docs link. -/
theorem c7_witness :
    (containsSub "gemini".data "https://docs.google.com/document/d/q".data = false) ∧
    (classifyAttachmentFlat none "Meeting Minutes".data
      "https://docs.google.com/document/d/q".data).1 = AttachCat.minutes ∧
    (classifyAttachmentFlat none "Budget Review".data
      "https://docs.google.com/document/d/q".data).1 = AttachCat.agenda :=
  ⟨by decide,
    c7_classification_amended.1 "https://docs.google.com/document/d/q".data (by decide),
    c7_classification_amended.2.2.2.2 "Budget Review".data
      "https://docs.google.com/document/d/q".data (by decide) (by decide) (by decide)
      (by decide) (by decide) (by decide) (by decide) (by decide) (by decide) (by decide)
      (by decide)⟩

/-- C8: every token of the moment table translates to exactly its mapped
native code, and the pipeline format string translates to a native pattern
rendering 2026-02-26, a Thursday, as claimed. -/
theorem c8_token_translation :
    momentTable.all (fun p => convertMomentToStrftime p.1 == p.2) = true ∧
    convertMomentToStrftime "YYYY/MM-MMMM/YYYY-MM-DD dddd".data =
      "%Y/%m-%B/%Y-%m-%d %A".data ∧
    strftimeRender date20260226 (convertMomentToStrftime "YYYY/MM-MMMM/YYYY-MM-DD dddd".data) =
      "2026/02-February/2026-02-26 Thursday".data :=
  ⟨by decide, by decide, by decide⟩

/-- C9: an event whose start date is missing or fails to parse yields a
per-event error: it produces no meeting pair, and the batch result equals
processing the same batch without it — remaining events are unaffected. -/
theorem c9_per_event_error :
    ∀ (env : CalendarEnv) (xs ys : List Event) (bad : Event),
      (eventDateStr bad = none ∨
        ∃ s, eventDateStr bad = some s ∧ env.parseDateTime s = none) →
      (∃ e, createMeetingNote env bad = Except.error e) ∧
      processCalendarEvents env (xs ++ bad :: ys) = processCalendarEvents env (xs ++ ys) := by
  intro env xs ys bad hbad
  have herr : ∃ e, createMeetingNote env bad = Except.error e := by
    rcases hbad with h | ⟨s, hs, hp⟩
    · exact ⟨"Event has no start date".data, by
        simp [createMeetingNote, getMeetingFilePath, h]⟩
    · exact ⟨"invalid date string".data, by
        simp [createMeetingNote, getMeetingFilePath, hs, hp]⟩
  refine ⟨herr, ?_⟩
  obtain ⟨e, he⟩ := herr
  have hstep : ∀ acc, processStep env acc bad = acc := by
    intro acc
    unfold processStep
    split_ifs with h
    · rfl
    · rw [he]
  unfold processCalendarEvents
  rw [List.foldl_append, List.foldl_append, List.foldl_cons, hstep]

/-- C9 witness: a dateless event inside a batch is reported as an error and
drops out without affecting the rest of the batch. -/
theorem c9_witness :
    (eventDateStr ⟨none, some "Ghost".data, [⟨some "a@b.c".data, false, none⟩], none, none,
        none, none⟩ = none) ∧
    processCalendarEvents ⟨fun _ => none⟩
        ([] ++ (⟨none, some "Ghost".data, [⟨some "a@b.c".data, false, none⟩], none, none,
          none, none⟩ : Event) :: []) =
      processCalendarEvents ⟨fun _ => none⟩ ([] ++ []) :=
  ⟨by decide,
    (c9_per_event_error ⟨fun _ => none⟩ [] []
      ⟨none, some "Ghost".data, [⟨some "a@b.c".data, false, none⟩], none, none, none, none⟩
      (Or.inl (by decide))).2⟩

/-- C10: the class-based title-only classifier only ever returns
transcript, recording, agenda or minutes — never slides or other — and a
title matching no keyword check classifies as agenda whatever the URL. -/
theorem c10_classifier_range :
    (∀ title url : Str,
      (classifyAttachment title url).1 = "transcript".data ∨
      (classifyAttachment title url).1 = "recording".data ∨
      (classifyAttachment title url).1 = "agenda".data ∨
      (classifyAttachment title url).1 = "minutes".data) ∧
    (∀ title url : Str,
      containsSub "gemini".data (lowerAscii title) = false →
      containsSub "notes by gemini".data (lowerAscii title) = false →
      containsSub "recording".data (lowerAscii title) = false →
      containsSub "notes".data (lowerAscii title) = false →
      containsSub "agenda".data (lowerAscii title) = false →
      containsSub "1:1".data (lowerAscii title) = false →
      containsSub "1-1".data (lowerAscii title) = false →
      containsSub "minutes".data (lowerAscii title) = false →
      containsSub "summary".data (lowerAscii title) = false →
      containsSub "recap".data (lowerAscii title) = false →
      (classifyAttachment title url).1 = "agenda".data) := by
  constructor
  · intro title url
    unfold classifyAttachment
    dsimp only
    split_ifs <;> simp
  · intro title url h1 h2 h3 h4 h5 h6 h7 h8 h9 h10
    simp only [classifyAttachment, h1, h2, h3, h4, h5, h6, h7, h8, h9, h10]
    simp

/-- C10 witness: a keyword-free title classifies as agenda even with a
non-docs URL. -/
theorem c10_witness :
    (containsSub "gemini".data (lowerAscii "Budget Review".data) = false) ∧
    (classifyAttachment "Budget Review".data "https://example.com/a.pdf".data).1 =
      "agenda".data :=
  ⟨by decide,
    c10_classifier_range.2 "Budget Review".data "https://example.com/a.pdf".data
      (by decide) (by decide) (by decide) (by decide) (by decide) (by decide) (by decide)
      (by decide) (by decide) (by decide)⟩
